import Mathlib

/-!
Verification of the object-interning engine of `go-object-interning`
(`object_intern.go`).

The engine is embedded shallowly:

* Byte sequences (Go `[]byte` and `string` values) are `List Nat`.
* A slot of the backing object store is a 4-byte little-endian reference
  count header followed by the payload bytes; it is modelled as a pair
  `Slot` of the header value (kept below `2^32`, all writes reduce
  modulo `2^32` exactly as the 32-bit atomic adds do) and the payload.
* Addresses (`uintptr`) are `Nat`.
* The external object store (`gos.ObjectStore`, an out-of-repo
  collaborator) is modelled from its contract in the spec as a finite
  map from addresses to slots with a fresh-address allocator; its
  `Delete` may fail, which is modelled by a set of addresses whose
  free fails.
* The engine's operations are translated statement by statement from
  `object_intern.go`; locking disappears in this sequential model but
  the double-checked re-reads of the source are kept literally.
-/

set_option autoImplicit false

namespace Goi

/-- Modulus of the 32-bit reference count word (`2^32`). -/
def u32Mod : Nat := 4294967296

/-- Errors surfaced by the engine and its collaborators. -/
inductive GoiErr where
  /-- the object store could not find the address (`store.Get` failure) -/
  | notFound
  /-- engine error `Could not find object in store: %s` carrying the object -/
  | couldNotFind (obj : List Nat)
  /-- engine error `Could not find object in store` without the object -/
  | couldNotFindPlain
  /-- engine error `Cannot create string from 0 length slice` -/
  | zeroLengthSlice
  /-- the codec rejected its input -/
  | decompressFailed
  /-- the object store failed to free a slot (`store.Delete` failure) -/
  | freeFailed
deriving DecidableEq

/-- A slot of the object store: the 4-byte little-endian reference count
header (slot bytes 0..3, always kept `< 2^32`) and the payload bytes
(slot bytes 4.., i.e. the slot contents with the header stripped). -/
structure Slot where
  refcnt : Nat
  payload : List Nat
deriving DecidableEq

/-- Look up an address in an association list of slots (first match). -/
def getSlot (slots : List (Nat × Slot)) (a : Nat) : Option Slot :=
  match slots with
  | [] => none
  | (a', sl) :: rest => if a' = a then some sl else getSlot rest a

/-- Modelled from the spec: the external object store
`gos.ObjectStore` (github.com/grafana/go-generic-object-store is not
part of this repository).  Per spec section 4.4 it maps addresses to
slots, allocates fresh addresses on `Add`, returns the full slot bytes
on `Get`, and frees the slot on `Delete`.  `failing` is the set of
addresses whose free fails, modelling the spec's acknowledgement
(section 7) that a slot free may fail. -/
structure GosStore where
  slots : List (Nat × Slot)
  next : Nat
  failing : List Nat
deriving DecidableEq

/-- A fresh, empty object store (`gos.NewObjectStore`). -/
def newGosStore : GosStore := ⟨[], 1, []⟩

/-- Store lookup, `store.Get`: the full slot bytes for a live address. -/
def GosStore.get (st : GosStore) (a : Nat) : Option Slot :=
  getSlot st.slots a

/-- Store allocation, `store.Add`: places the slot at a fresh address. -/
def GosStore.addSlot (st : GosStore) (sl : Slot) : Nat × GosStore :=
  (st.next, ⟨(st.next, sl) :: st.slots, st.next + 1, st.failing⟩)

/-- A 32-bit atomic add of `delta` to the reference count word at
address `a` (`atomic.AddUint32`); a decrement is `delta = 2^32 - 1`.
A write to an address that is not backed by a slot touches no slot
(in Go this would be a raw write to unmapped memory, which the
callers' contracts exclude). -/
def GosStore.updRC (st : GosStore) (a : Nat) (delta : Nat) : GosStore :=
  { st with slots := st.slots.map (fun e =>
      if e.1 = a then (e.1, ⟨(e.2.refcnt + delta) % u32Mod, e.2.payload⟩) else e) }

/-- Store free, `store.Delete`: removes the slot at `a`; fails for the
designated failing addresses and for unknown addresses. -/
def GosStore.del (st : GosStore) (a : Nat) : Except GoiErr GosStore :=
  if st.failing.contains a then .error .freeFailed
  else
    match getSlot st.slots a with
    | none => .error .notFound
    | some _ => .ok { st with slots := st.slots.filter (fun e => e.1 ≠ a) }

/-- The compression selector (source constant block `None`, `Shoco`,
`ShocoDict` referenced by `object_intern.go`). -/
inductive CompressionType where
  | None
  | Shoco
  | ShocoDict
deriving DecidableEq

/-- Modelled from the spec: the configuration record (section 4.7 and
section 6: fields `Compression` and `SlabSize`); the revision of the
configuration source file carrying these fields is not under `src/`. -/
structure ObjectInternConfig where
  Compression : CompressionType
  SlabSize : Nat
deriving DecidableEq

/-- Index lookup: Go map read `oi.objIndex[string(obj)]`. -/
def lookupKey (idx : List (List Nat × Nat)) (k : List Nat) : Option Nat :=
  match idx with
  | [] => none
  | (k', a) :: rest => if k' = k then some a else lookupKey rest k

/-- Index removal: Go map `delete(oi.objIndex, k)`. -/
def eraseKey (idx : List (List Nat × Nat)) (k : List Nat) : List (List Nat × Nat) :=
  idx.filter (fun e => e.1 ≠ k)

/-- Index insertion: Go map write `oi.objIndex[k] = addr`. -/
def insertKey (idx : List (List Nat × Nat)) (k : List Nat) (a : Nat) :
    List (List Nat × Nat) :=
  (k, a) :: eraseKey idx k

/-- The interning engine (`ObjectIntern`): configuration, object store,
content index from canonical payload bytes to slot address, and the
codec pair chosen at construction time.  The lock of the source has no
counterpart in this sequential model. -/
structure ObjectIntern where
  conf : ObjectInternConfig
  store : GosStore
  objIndex : List (List Nat × Nat)
  compress : List Nat → List Nat
  decompress : List Nat → Except GoiErr (List Nat)

/-- Engine construction, `NewObjectIntern`.  The Shoco codec is an
external collaborator, so its two functions are parameters; `None`
installs the identity pair exactly as the source does.  `ShocoDict`
and unrecognized selectors make the Go constructor panic, modelled by
`none`. -/
def newObjectIntern (c : ObjectInternConfig) (shocoC : List Nat → List Nat)
    (shocoD : List Nat → Except GoiErr (List Nat)) : Option ObjectIntern :=
  match c.Compression with
  | .Shoco => some ⟨c, newGosStore, [], shocoC, shocoD⟩
  | .ShocoDict => none
  | .None => some ⟨c, newGosStore, [], fun bs => bs, fun bs => .ok bs⟩

/-- The canonical (stored) form of an input: the input itself when
compression is off, its compressed form otherwise. -/
def ObjectIntern.canon (oi : ObjectIntern) (b : List Nat) : List Nat :=
  if oi.conf.Compression = CompressionType.None then b else oi.compress b

/-- Reading `len` bytes of payload at `addr + 4` straight out of slot
memory (the `reflect.StringHeader` constructions of the source).  A
read of an address with no live slot would be a read of unmapped
memory in Go; every use below is guarded by liveness. -/
def derefPayload (oi : ObjectIntern) (addr : Nat) (len : Nat) : List Nat :=
  match oi.store.get addr with
  | some sl => sl.payload.take len
  | none => []

/-- A raw, checkless read of the reference count word at `a`
(the unlocked `atomic.LoadUint32` of the `Unsafe` variants); reading
an address with no live slot would be undefined in Go and is excluded
by those variants' caller contract. -/
def ObjectIntern.rawRC (oi : ObjectIntern) (a : Nat) : Nat :=
  match oi.store.get a with
  | some sl => sl.refcnt
  | none => 0

/-- Source `getAndIncrement`: index lookup; on a hit, atomically add 1
to the slot's reference count and return the address with `true`; on a
miss return `0` with `false` leaving everything unchanged. -/
def ObjectIntern.getAndIncrement (oi : ObjectIntern) (obj : List Nat) :
    (Nat × Bool) × ObjectIntern :=
  match lookupKey oi.objIndex obj with
  | some addr => ((addr, true), { oi with store := oi.store.updRC addr 1 })
  | none => ((0, false), oi)

/-- Source `add`: prepend the little-endian reference count header
`0x01 0x00 0x00 0x00` (initial count 1), hand the bytes to the store,
rebind the key's data pointer to `addr + 4` (in this value-level model
the key simply is the payload bytes) and insert it into the index. -/
def ObjectIntern.add (oi : ObjectIntern) (obj : List Nat) : Nat × ObjectIntern :=
  let (addr, st) := oi.store.addSlot ⟨1, obj⟩
  (addr, { oi with store := st, objIndex := insertKey oi.objIndex obj addr })

/-- Source `AddOrGet`.  The branch structure of the source is kept:
the allocation-heavy branch (compression on, or `safe` with
compression off) with its uncompressed fast path, the safe copy (a
value-level no-op), the shared-lock attempt, the exclusive-lock
re-check, and the final `add`; and the allocation-free branch
likewise. -/
def ObjectIntern.AddOrGet (oi : ObjectIntern) (obj : List Nat) (safe : Bool) :
    Except GoiErr Nat × ObjectIntern :=
  if oi.conf.Compression ≠ CompressionType.None ∨
      (safe ∧ oi.conf.Compression = CompressionType.None) then
    let step1 :=
      if oi.conf.Compression = CompressionType.None then oi.getAndIncrement obj
      else ((0, false), oi)
    match step1 with
    | ((addr, true), oi1) => (.ok addr, oi1)
    | ((_, false), oi1) =>
      let objComp :=
        if oi.conf.Compression ≠ CompressionType.None then oi.compress obj
        else obj
      match oi1.getAndIncrement objComp with
      | ((addr, true), oi2) => (.ok addr, oi2)
      | ((_, false), oi2) =>
        match oi2.getAndIncrement objComp with
        | ((addr, true), oi3) => (.ok addr, oi3)
        | ((_, false), oi3) =>
          let (addr, oi4) := oi3.add objComp
          (.ok addr, oi4)
  else
    match oi.getAndIncrement obj with
    | ((addr, true), oi1) => (.ok addr, oi1)
    | ((_, false), oi1) =>
      match oi1.getAndIncrement obj with
      | ((addr, true), oi2) => (.ok addr, oi2)
      | ((_, false), oi2) =>
        let (addr, oi3) := oi2.add obj
        (.ok addr, oi3)

/-- Source `AddOrGetString`.  Same traversal as `AddOrGet`; with
compression off the returned string aliases the slot payload at
`addr + 4` (modelled by `derefPayload`), with compression on every
successful return is `string(obj)`, a fresh copy of the caller's
input. -/
def ObjectIntern.AddOrGetString (oi : ObjectIntern) (obj : List Nat) (safe : Bool) :
    Except GoiErr (List Nat) × ObjectIntern :=
  if oi.conf.Compression ≠ CompressionType.None ∨
      (safe ∧ oi.conf.Compression = CompressionType.None) then
    let step1 :=
      if oi.conf.Compression = CompressionType.None then oi.getAndIncrement obj
      else ((0, false), oi)
    match step1 with
    | ((addr, true), oi1) => (.ok (derefPayload oi1 addr obj.length), oi1)
    | ((_, false), oi1) =>
      let objComp :=
        if oi.conf.Compression ≠ CompressionType.None then oi.compress obj
        else obj
      match oi1.getAndIncrement objComp with
      | ((addr, true), oi2) =>
        if oi.conf.Compression = CompressionType.None then
          (.ok (derefPayload oi2 addr objComp.length), oi2)
        else (.ok obj, oi2)
      | ((_, false), oi2) =>
        match oi2.getAndIncrement objComp with
        | ((addr, true), oi3) =>
          if oi.conf.Compression = CompressionType.None then
            (.ok (derefPayload oi3 addr objComp.length), oi3)
          else (.ok obj, oi3)
        | ((_, false), oi3) =>
          let (addr, oi4) := oi3.add objComp
          if oi.conf.Compression ≠ CompressionType.None then (.ok obj, oi4)
          else (.ok (derefPayload oi4 addr objComp.length), oi4)
  else
    match oi.getAndIncrement obj with
    | ((addr, true), oi1) => (.ok (derefPayload oi1 addr obj.length), oi1)
    | ((_, false), oi1) =>
      match oi1.getAndIncrement obj with
      | ((addr, true), oi2) => (.ok (derefPayload oi2 addr obj.length), oi2)
      | ((_, false), oi2) =>
        let (addr, oi3) := oi2.add obj
        (.ok (derefPayload oi3 addr obj.length), oi3)

/-- Source `GetPtrFromByte`: compress if needed, look the canonical
bytes up in the index, return the address; never changes the
reference count (the engine state is returned untouched). -/
def ObjectIntern.GetPtrFromByte (oi : ObjectIntern) (obj : List Nat) :
    Except GoiErr Nat × ObjectIntern :=
  if oi.conf.Compression ≠ CompressionType.None then
    match lookupKey oi.objIndex (oi.compress obj) with
    | some addr => (.ok addr, oi)
    | none => (.error (.couldNotFind obj), oi)
  else
    match lookupKey oi.objIndex obj with
    | some addr => (.ok addr, oi)
    | none => (.error (.couldNotFind obj), oi)

/-- Source `GetStringFromPtr`: fetch the slot bytes; with compression
on return the decompressed payload as a fresh string, otherwise return
a string aliasing the payload at `objAddr + 4`. -/
def ObjectIntern.GetStringFromPtr (oi : ObjectIntern) (objAddr : Nat) :
    Except GoiErr (List Nat) :=
  match oi.store.get objAddr with
  | none => .error .notFound
  | some sl =>
    if oi.conf.Compression ≠ CompressionType.None then
      match oi.decompress sl.payload with
      | .ok b => .ok b
      | .error e => .error e
    else .ok sl.payload

/-- Source `Delete`: store membership check, decrement when the count
exceeds 1; otherwise the exclusive re-check of both, then index entry
removal first (keyed by the slot payload `obj[4:]`) and the store free
second; a failed free surfaces its error with `false`. -/
def ObjectIntern.Delete (oi : ObjectIntern) (objAddr : Nat) :
    (Bool × Option GoiErr) × ObjectIntern :=
  match oi.store.get objAddr with
  | none => ((false, some .notFound), oi)
  | some sl =>
    if sl.refcnt > 1 then
      ((false, none), { oi with store := oi.store.updRC objAddr (u32Mod - 1) })
    else
      match oi.store.get objAddr with
      | none => ((false, some .notFound), oi)
      | some sl2 =>
        if sl2.refcnt > 1 then
          ((false, none), { oi with store := oi.store.updRC objAddr (u32Mod - 1) })
        else
          let oi1 := { oi with objIndex := eraseKey oi.objIndex sl2.payload }
          match oi1.store.del objAddr with
          | .ok st => ((true, none), { oi1 with store := st })
          | .error e => ((false, some e), oi1)

/-- One pass of the second phase of the batch deletions, and of the
body shared with `Delete`: re-check, decrement when the count exceeds
1, otherwise remove the index entry and free the slot, errors being
silently dropped. -/
def ObjectIntern.deleteStep (oi : ObjectIntern) (p : Nat) : ObjectIntern :=
  match oi.store.get p with
  | none => oi
  | some sl =>
    if sl.refcnt > 1 then { oi with store := oi.store.updRC p (u32Mod - 1) }
    else
      let oi1 := { oi with objIndex := eraseKey oi.objIndex sl.payload }
      match oi1.store.del p with
      | .ok st => { oi1 with store := st }
      | .error _ => oi1

/-- Second phase of `DeleteBatch` and its checkless variant: apply
`deleteStep` to every collected address in order. -/
def ObjectIntern.deleteList (oi : ObjectIntern) : List Nat → ObjectIntern
  | [] => oi
  | p :: ps => (oi.deleteStep p).deleteList ps

/-- First phase of `DeleteBatch`, translated at the level of the
caller's backing array: `toDelete := ptrs[:0]` makes `toDelete` share
the array, and each `append` writes the collected address at position
`c` of that array.  `i` is the read cursor of `range ptrs`, `c` the
number collected so far. -/
def dbLoop (oi : ObjectIntern) (backing : List Nat) (i c : Nat) :
    List Nat × Nat × ObjectIntern :=
  if h : i < backing.length then
    let p := backing.getD i 0
    match oi.store.get p with
    | none => dbLoop oi backing (i + 1) c
    | some sl =>
      if sl.refcnt > 1 then
        dbLoop { oi with store := oi.store.updRC p (u32Mod - 1) } backing (i + 1) c
      else
        dbLoop oi (backing.set c p) (i + 1) (c + 1)
  else (backing, c, oi)
termination_by backing.length - i
decreasing_by
  all_goals simp [List.length_set]; omega

/-- Source `DeleteBatch`: the first pass over the caller's array, then
(when anything was collected) the exclusive second pass over the
collected part of that same array.  The second component of
the result is the caller-visible content of the `ptrs` array after the
call. -/
def ObjectIntern.DeleteBatch (oi : ObjectIntern) (ptrs : List Nat) :
    ObjectIntern × List Nat :=
  let r := dbLoop oi ptrs 0 0
  let backing := r.1
  let c := r.2.1
  let oi1 := r.2.2
  if c > 0 then (oi1.deleteList (backing.take c), backing)
  else (oi1, backing)

/-- First phase of the checkless batch variant (Go name
`DeleteBatchUnsafe`): same array discipline, but the store membership
check is skipped and the reference count is read raw. -/
def dbLoopNC (oi : ObjectIntern) (backing : List Nat) (i c : Nat) :
    List Nat × Nat × ObjectIntern :=
  if h : i < backing.length then
    let p := backing.getD i 0
    if oi.rawRC p > 1 then
      dbLoopNC { oi with store := oi.store.updRC p (u32Mod - 1) } backing (i + 1) c
    else
      dbLoopNC oi (backing.set c p) (i + 1) (c + 1)
  else (backing, c, oi)
termination_by backing.length - i
decreasing_by
  all_goals simp [List.length_set]; omega

/-- Checkless batch deletion (Go name `DeleteBatchUnsafe`): checkless
first pass, then the same second pass as `DeleteBatch`. -/
def ObjectIntern.DeleteBatchNC (oi : ObjectIntern) (ptrs : List Nat) :
    ObjectIntern × List Nat :=
  let r := dbLoopNC oi ptrs 0 0
  let backing := r.1
  let c := r.2.1
  let oi1 := r.2.2
  if c > 0 then (oi1.deleteList (backing.take c), backing)
  else (oi1, backing)

/-- Checkless single deletion (Go name `DeleteUnsafe`): raw decrement
when the count exceeds 1, otherwise the checked exclusive path of
`Delete`. -/
def ObjectIntern.DeleteNC (oi : ObjectIntern) (objAddr : Nat) :
    (Bool × Option GoiErr) × ObjectIntern :=
  if oi.rawRC objAddr > 1 then
    ((false, none), { oi with store := oi.store.updRC objAddr (u32Mod - 1) })
  else
    match oi.store.get objAddr with
    | none => ((false, some .notFound), oi)
    | some sl =>
      if sl.refcnt > 1 then
        ((false, none), { oi with store := oi.store.updRC objAddr (u32Mod - 1) })
      else
        let oi1 := { oi with objIndex := eraseKey oi.objIndex sl.payload }
        match oi1.store.del objAddr with
        | .ok st => ((true, none), { oi1 with store := st })
        | .error e => ((false, some e), oi1)

/-- Source `DeleteByByte`: look the canonical bytes up in the index
and delegate to `Delete`. -/
def ObjectIntern.DeleteByByte (oi : ObjectIntern) (obj : List Nat) :
    (Bool × Option GoiErr) × ObjectIntern :=
  if oi.conf.Compression ≠ CompressionType.None then
    match lookupKey oi.objIndex (oi.compress obj) with
    | none => ((false, some (.couldNotFind obj)), oi)
    | some addr => oi.Delete addr
  else
    match lookupKey oi.objIndex obj with
    | none => ((false, some (.couldNotFind obj)), oi)
    | some addr => oi.Delete addr

/-- Source `DeleteByString`: identical to `DeleteByByte` after the
`[]byte(obj)` conversion (strings are byte sequences in this model). -/
def ObjectIntern.DeleteByString (oi : ObjectIntern) (obj : List Nat) :
    (Bool × Option GoiErr) × ObjectIntern :=
  oi.DeleteByByte obj

/-- Source `RefCnt`: store membership check, then an atomic load of
the reference count word. -/
def ObjectIntern.RefCnt (oi : ObjectIntern) (objAddr : Nat) : Except GoiErr Nat :=
  match oi.store.get objAddr with
  | none => .error .notFound
  | some sl => .ok sl.refcnt

/-- Source `IncRefCnt`: store membership check, then an atomic add
of 1. -/
def ObjectIntern.IncRefCnt (oi : ObjectIntern) (objAddr : Nat) :
    (Bool × Option GoiErr) × ObjectIntern :=
  match oi.store.get objAddr with
  | none => ((false, some .notFound), oi)
  | some _ => ((true, none), { oi with store := oi.store.updRC objAddr 1 })

/-- Checkless increment (Go name `IncRefCntUnsafe`): a raw atomic add
of 1. -/
def ObjectIntern.IncRefCntNC (oi : ObjectIntern) (objAddr : Nat) : ObjectIntern :=
  { oi with store := oi.store.updRC objAddr 1 }

/-- Source `IncRefCntByString`: canonicalise, look up in the index,
delegate to `IncRefCnt`. -/
def ObjectIntern.IncRefCntByString (oi : ObjectIntern) (obj : List Nat) :
    (Bool × Option GoiErr) × ObjectIntern :=
  let key := if oi.conf.Compression ≠ CompressionType.None then oi.compress obj else obj
  match lookupKey oi.objIndex key with
  | none => ((false, some .couldNotFindPlain), oi)
  | some addr => oi.IncRefCnt addr

/-- Source `IncRefCntBatch`: per address, membership check then an
atomic add of 1; failures skipped. -/
def ObjectIntern.IncRefCntBatch (oi : ObjectIntern) : List Nat → ObjectIntern
  | [] => oi
  | p :: ps =>
    match oi.store.get p with
    | none => oi.IncRefCntBatch ps
    | some _ => ObjectIntern.IncRefCntBatch { oi with store := oi.store.updRC p 1 } ps

/-- Checkless batch increment (Go name `IncRefCntBatchUnsafe`). -/
def ObjectIntern.IncRefCntBatchNC (oi : ObjectIntern) : List Nat → ObjectIntern
  | [] => oi
  | p :: ps => ObjectIntern.IncRefCntBatchNC { oi with store := oi.store.updRC p 1 } ps

/-- Source `ObjBytes`: slot fetch; with compression on return the
decompressed payload, otherwise the payload view `b[4:]`. -/
def ObjectIntern.ObjBytes (oi : ObjectIntern) (objAddr : Nat) :
    Except GoiErr (List Nat) :=
  match oi.store.get objAddr with
  | none => .error .notFound
  | some sl =>
    if oi.conf.Compression ≠ CompressionType.None then oi.decompress sl.payload
    else .ok sl.payload

/-- Source `ObjString`: slot fetch; with compression on return the
decompressed payload as a fresh string, otherwise a fresh
`string(b[4:])`. -/
def ObjectIntern.ObjString (oi : ObjectIntern) (objAddr : Nat) :
    Except GoiErr (List Nat) :=
  match oi.store.get objAddr with
  | none => .error .notFound
  | some sl =>
    if oi.conf.Compression ≠ CompressionType.None then
      match oi.decompress sl.payload with
      | .ok b => .ok b
      | .error _ => .error .decompressFailed
    else .ok sl.payload

/-- Source `Len` loop: per address the payload length `len(b) - 4`;
on the first store miss the remaining entries stay zero and the flag
drops to `false`. -/
def lenLoop (oi : ObjectIntern) : List Nat → List Nat × Bool
  | [] => ([], true)
  | p :: ps =>
    match oi.store.get p with
    | none => (0 :: ps.map (fun _ => 0), false)
    | some sl =>
      let r := lenLoop oi ps
      (sl.payload.length :: r.1, r.2)

/-- Source `Len`. -/
def ObjectIntern.Len (oi : ObjectIntern) (ptrs : List Nat) : List Nat × Bool :=
  lenLoop oi ptrs

/-- Accumulating loop of `joinStringsCompressed`: append separator and
each further decompressed element. -/
def joinLoopC (oi : ObjectIntern) (sep : List Nat) (acc : List Nat) :
    List Nat → Except GoiErr (List Nat)
  | [] => .ok acc
  | p :: ps =>
    match oi.GetStringFromPtr p with
    | .error e => .error e
    | .ok s => joinLoopC oi sep (acc ++ sep ++ s) ps

/-- Source `joinStringsCompressed`. -/
def ObjectIntern.joinStringsCompressed (oi : ObjectIntern) (nodes : List Nat)
    (sep : List Nat) : Except GoiErr (List Nat) :=
  match nodes with
  | [] => .error .zeroLengthSlice
  | [single] => oi.GetStringFromPtr single
  | first :: rest =>
    match oi.GetStringFromPtr first with
    | .error e => .error e
    | .ok s0 => joinLoopC oi sep s0 rest

/-- Accumulating loop of `joinStringsUncompressed`: per further node a
string view of `nodePtr + 4` with the corresponding recorded length. -/
def joinLoopU (oi : ObjectIntern) (sep : List Nat) (acc : List Nat) :
    List Nat → List Nat → List Nat
  | [], _ => acc
  | _ :: _, [] => acc
  | p :: ps, l :: ls => joinLoopU oi sep (acc ++ sep ++ derefPayload oi p l) ps ls

/-- Source `joinStringsUncompressed`: empty input is an error, a
single node is returned via `GetStringFromPtr`, otherwise the lengths
are collected (failing with the incomplete flag) and the payload views
are concatenated with the separator. -/
def ObjectIntern.joinStringsUncompressed (oi : ObjectIntern) (nodes : List Nat)
    (sep : List Nat) : Except GoiErr (List Nat) :=
  match nodes with
  | [] => .error .zeroLengthSlice
  | [single] => oi.GetStringFromPtr single
  | first :: rest =>
    let r := oi.Len (first :: rest)
    if r.2 = false then .error .couldNotFindPlain
    else
      match r.1 with
      | [] => .ok []
      | l0 :: ls => .ok (joinLoopU oi sep (derefPayload oi first l0) rest ls)

/-- Source `JoinStrings`: dispatch on the compression mode. -/
def ObjectIntern.JoinStrings (oi : ObjectIntern) (nodes : List Nat) (sep : List Nat) :
    Except GoiErr (List Nat) :=
  if oi.conf.Compression ≠ CompressionType.None then
    oi.joinStringsCompressed nodes sep
  else oi.joinStringsUncompressed nodes sep

/-- The loop of `Reset`: per index entry delete the entry (the final
wholesale rebuild supersedes this in the model) and free its slot,
aborting on a store error. -/
def resetLoop : List (List Nat × Nat) → GosStore → Except GoiErr GosStore
  | [], st => .ok st
  | (_, addr) :: rest, st =>
    match st.del addr with
    | .error e => .error e
    | .ok st' => resetLoop rest st'

/-- Source `Reset`: free every indexed slot, then rebuild an empty
store and index. -/
def ObjectIntern.Reset (oi : ObjectIntern) : Except GoiErr ObjectIntern :=
  match resetLoop oi.objIndex oi.store with
  | .error e => .error e
  | .ok _ => .ok { oi with store := newGosStore, objIndex := [] }

/-- The payload stored at address `a`, when the slot is live. -/
def payloadAt (st : GosStore) (a : Nat) : Option (List Nat) :=
  (st.get a).map Slot.payload

/-- The structural invariant of the engine (spec section 3, Index):
every index entry references a live slot whose payload bytes equal the
entry's key bytes; index keys are unique (the index is a Go map); the
store hands out addresses below its allocation cursor; and every
reference count word fits in 32 bits. -/
def Inv (oi : ObjectIntern) : Prop :=
  (∀ e ∈ oi.objIndex, payloadAt oi.store e.2 = some e.1) ∧
  (oi.objIndex.map Prod.fst).Nodup ∧
  (∀ s ∈ oi.store.slots, s.1 < oi.store.next) ∧
  (∀ s ∈ oi.store.slots, s.2.refcnt < u32Mod)

/-- The codec contract (spec sections 4.1 and 6): decompression
round-trips compression, and with compression off both functions are
the identity, exactly as installed by `NewObjectIntern`. -/
def CodecOk (oi : ObjectIntern) : Prop :=
  (∀ x, oi.decompress (oi.compress x) = .ok x) ∧
  (oi.conf.Compression = CompressionType.None →
    (∀ x, oi.compress x = x) ∧ (∀ x, oi.decompress x = .ok x))

/-- A well-formed engine state: structural invariant plus codec
contract. -/
def Good (oi : ObjectIntern) : Prop := Inv oi ∧ CodecOk oi

/-- A freshly constructed engine with the given codec pair (the store
and index of `NewObjectIntern`). -/
def freshEngine (c : ObjectInternConfig) (shocoC : List Nat → List Nat)
    (shocoD : List Nat → Except GoiErr (List Nat)) : ObjectIntern :=
  ⟨c, newGosStore, [], shocoC, shocoD⟩

/-- The engine state after `k` further calls `AddOrGet(b, safe)`. -/
def addOrGetIter (oi : ObjectIntern) (b : List Nat) (safe : Bool) : Nat → ObjectIntern
  | 0 => oi
  | k + 1 => ((addOrGetIter oi b safe k).AddOrGet b safe).2

/-- The engine state after `k` further calls `Delete(a)`. -/
def deleteIter (oi : ObjectIntern) (a : Nat) : Nat → ObjectIntern
  | 0 => oi
  | k + 1 => ((deleteIter oi a k).Delete a).2

/-- Intern a list of byte sequences in order, collecting the returned
addresses (the model's `AddOrGet` always succeeds, a failure
contributing the never-produced address 0). -/
def internAll (oi : ObjectIntern) (safe : Bool) :
    List (List Nat) → List Nat × ObjectIntern
  | [] => ([], oi)
  | b :: bs =>
    let r := oi.AddOrGet b safe
    let rest := internAll r.2 safe bs
    ((match r.1 with | .ok a => a | .error _ => 0) :: rest.1, rest.2)

/-- The collected-for-deletion list of the first phase of
`DeleteBatch`, read off the original array values (used to state what
the loop writes back into the caller's array). -/
def dbCollect (oi : ObjectIntern) : List Nat → List Nat × ObjectIntern
  | [] => ([], oi)
  | p :: ps =>
    match oi.store.get p with
    | none => dbCollect oi ps
    | some sl =>
      if sl.refcnt > 1 then
        dbCollect { oi with store := oi.store.updRC p (u32Mod - 1) } ps
      else
        let r := dbCollect oi ps
        (p :: r.1, r.2)

/-- The collected-for-deletion list of the first phase of the
checkless batch variant. -/
def dbCollectNC (oi : ObjectIntern) : List Nat → List Nat × ObjectIntern
  | [] => ([], oi)
  | p :: ps =>
    if oi.rawRC p > 1 then
      dbCollectNC { oi with store := oi.store.updRC p (u32Mod - 1) } ps
    else
      let r := dbCollectNC oi ps
      (p :: r.1, r.2)

/-- Joining byte sequences with a separator, the reference meaning of
`JoinStrings` used to state its contract. -/
def sepJoin (sep : List Nat) : List (List Nat) → List Nat
  | [] => []
  | [x] => x
  | x :: y :: rest => x ++ sep ++ sepJoin sep (y :: rest)

/-! ## Lemmas about the store and the index -/

theorem getSlot_eq_none_nil (a : Nat) : getSlot [] a = none := rfl

theorem getSlot_cons (a' : Nat) (sl : Slot) (rest : List (Nat × Slot)) (a : Nat) :
    getSlot ((a', sl) :: rest) a = if a' = a then some sl else getSlot rest a := rfl

theorem getSlot_map_upd (slots : List (Nat × Slot)) (a delta a' : Nat) :
    getSlot (slots.map (fun e =>
        if e.1 = a then (e.1, ⟨(e.2.refcnt + delta) % u32Mod, e.2.payload⟩) else e)) a' =
      if a' = a then
        (getSlot slots a').map (fun sl => ⟨(sl.refcnt + delta) % u32Mod, sl.payload⟩)
      else getSlot slots a' := by
  induction slots with
  | nil => by_cases h : a' = a <;> simp [getSlot, h]
  | cons e rest ih =>
    obtain ⟨b, sl⟩ := e
    simp only [List.map_cons]
    by_cases hba : b = a
    · subst hba
      rw [if_pos rfl]
      by_cases hba' : b = a'
      · subst hba'
        rw [getSlot_cons, if_pos rfl, getSlot_cons, if_pos rfl, if_pos rfl]
        rfl
      · rw [getSlot_cons, if_neg hba', getSlot_cons, if_neg hba', ih]
    · rw [if_neg hba]
      by_cases hba' : b = a'
      · subst hba'
        rw [getSlot_cons, if_pos rfl, getSlot_cons, if_pos rfl,
          if_neg (fun h : b = a => hba h)]
      · rw [getSlot_cons, if_neg hba', getSlot_cons, if_neg hba', ih]

theorem get_updRC (st : GosStore) (a delta a' : Nat) :
    (st.updRC a delta).get a' =
      if a' = a then
        (st.get a').map (fun sl => ⟨(sl.refcnt + delta) % u32Mod, sl.payload⟩)
      else st.get a' := by
  unfold GosStore.updRC GosStore.get
  exact getSlot_map_upd st.slots a delta a'

theorem get_updRC_payload (st : GosStore) (a delta a' : Nat) :
    payloadAt (st.updRC a delta) a' = payloadAt st a' := by
  unfold payloadAt
  rw [get_updRC]
  by_cases h : a' = a
  · rw [if_pos h]
    cases st.get a' <;> simp
  · rw [if_neg h]

theorem updRC_next (st : GosStore) (a delta : Nat) :
    (st.updRC a delta).next = st.next := rfl

theorem updRC_failing (st : GosStore) (a delta : Nat) :
    (st.updRC a delta).failing = st.failing := rfl

theorem get_addSlot_self (st : GosStore) (sl : Slot) :
    (st.addSlot sl).2.get st.next = some sl := by
  simp [GosStore.addSlot, GosStore.get, getSlot]

theorem get_addSlot_ne (st : GosStore) (sl : Slot) (a : Nat) (h : a ≠ st.next) :
    (st.addSlot sl).2.get a = st.get a := by
  unfold GosStore.addSlot GosStore.get
  exact if_neg (fun h' => h h'.symm)

theorem getSlot_filter_self (slots : List (Nat × Slot)) (a : Nat) :
    getSlot (slots.filter (fun e => e.1 ≠ a)) a = none := by
  induction slots with
  | nil => rfl
  | cons e rest ih =>
    obtain ⟨b, sl⟩ := e
    simp only [ne_eq, decide_not] at ih ⊢
    by_cases hba : b = a
    · simp [List.filter_cons, hba, ih]
    · simp [List.filter_cons, hba, getSlot, ih]

theorem getSlot_filter_ne (slots : List (Nat × Slot)) (a a' : Nat) (h : a' ≠ a) :
    getSlot (slots.filter (fun e => e.1 ≠ a)) a' = getSlot slots a' := by
  induction slots with
  | nil => rfl
  | cons e rest ih =>
    obtain ⟨b, sl⟩ := e
    simp only [ne_eq, decide_not] at ih ⊢
    by_cases hba : b = a
    · have hb' : b ≠ a' := fun hb => h (hba ▸ hb ▸ rfl)
      simp [List.filter_cons, hba, getSlot, hb', ih, Ne.symm h]
    · by_cases hba' : b = a'
      · simp [List.filter_cons, hba, getSlot, hba', ih, h]
      · simp [List.filter_cons, hba, getSlot, hba', ih]

theorem del_ok_get (st st' : GosStore) (a : Nat) (h : st.del a = .ok st') :
    st'.get a = none ∧ (∀ a', a' ≠ a → st'.get a' = st.get a') ∧
      st'.next = st.next ∧ st'.failing = st.failing := by
  unfold GosStore.del at h
  by_cases hf : st.failing.contains a = true
  · rw [if_pos hf] at h
    exact Except.noConfusion h
  · rw [if_neg hf] at h
    cases hg : getSlot st.slots a with
    | none =>
      rw [hg] at h
      exact Except.noConfusion h
    | some sl =>
      rw [hg] at h
      injection h with h2
      subst h2
      exact ⟨getSlot_filter_self _ _, fun a' ha' => getSlot_filter_ne _ _ _ ha',
        rfl, rfl⟩

theorem lookupKey_nil (k : List Nat) : lookupKey [] k = none := rfl

theorem lookupKey_cons (k' : List Nat) (a : Nat) (rest : List (List Nat × Nat))
    (k : List Nat) :
    lookupKey ((k', a) :: rest) k = if k' = k then some a else lookupKey rest k := rfl

theorem lookupKey_eraseKey_self (idx : List (List Nat × Nat)) (k : List Nat) :
    lookupKey (eraseKey idx k) k = none := by
  induction idx with
  | nil => rfl
  | cons e rest ih =>
    obtain ⟨k0, a⟩ := e
    unfold eraseKey at ih ⊢
    simp only [ne_eq, decide_not] at ih ⊢
    by_cases h0 : k0 = k
    · simp [List.filter_cons, h0, ih]
    · simp [List.filter_cons, h0, lookupKey, ih]

theorem lookupKey_eraseKey_ne (idx : List (List Nat × Nat)) (k k' : List Nat)
    (h : k' ≠ k) : lookupKey (eraseKey idx k) k' = lookupKey idx k' := by
  induction idx with
  | nil => rfl
  | cons e rest ih =>
    obtain ⟨k0, a⟩ := e
    unfold eraseKey at ih ⊢
    simp only [ne_eq, decide_not] at ih ⊢
    by_cases h0 : k0 = k
    · have hk' : k0 ≠ k' := fun hb => h (h0 ▸ hb ▸ rfl)
      simp [List.filter_cons, h0, lookupKey, hk', ih, Ne.symm h]
    · by_cases h0' : k0 = k'
      · simp [List.filter_cons, h0, lookupKey, h0', ih, h]
      · simp [List.filter_cons, h0, lookupKey, h0', ih]

theorem lookupKey_insertKey_self (idx : List (List Nat × Nat)) (k : List Nat) (a : Nat) :
    lookupKey (insertKey idx k a) k = some a := by
  simp [insertKey, lookupKey]

theorem mem_eraseKey (idx : List (List Nat × Nat)) (k : List Nat)
    (e : List Nat × Nat) (h : e ∈ eraseKey idx k) : e ∈ idx ∧ e.1 ≠ k := by
  unfold eraseKey at h
  have := List.of_mem_filter h
  exact ⟨List.mem_of_mem_filter h, by simpa using this⟩

/-! ## Characterization of AddOrGet -/

theorem AddOrGet_hit (oi : ObjectIntern) (b : List Nat) (safe : Bool) (a : Nat)
    (h : lookupKey oi.objIndex (oi.canon b) = some a) :
    oi.AddOrGet b safe = (.ok a, { oi with store := oi.store.updRC a 1 }) := by
  unfold ObjectIntern.canon at h
  by_cases hc : oi.conf.Compression = CompressionType.None
  · rw [if_pos hc] at h
    by_cases hs : safe = true
    · simp [ObjectIntern.AddOrGet, ObjectIntern.getAndIncrement, hc, hs, h]
    · simp [ObjectIntern.AddOrGet, ObjectIntern.getAndIncrement, hc, hs, h]
  · rw [if_neg hc] at h
    simp [ObjectIntern.AddOrGet, ObjectIntern.getAndIncrement, hc, h]

theorem AddOrGet_miss (oi : ObjectIntern) (b : List Nat) (safe : Bool)
    (h : lookupKey oi.objIndex (oi.canon b) = none) :
    oi.AddOrGet b safe = (.ok oi.store.next,
      { oi with store := (oi.store.addSlot ⟨1, oi.canon b⟩).2,
                objIndex := insertKey oi.objIndex (oi.canon b) oi.store.next }) := by
  unfold ObjectIntern.canon at h ⊢
  by_cases hc : oi.conf.Compression = CompressionType.None
  · rw [if_pos hc] at h ⊢
    by_cases hs : safe = true
    · simp [ObjectIntern.AddOrGet, ObjectIntern.getAndIncrement, ObjectIntern.add,
        GosStore.addSlot, hc, hs, h]
    · simp [ObjectIntern.AddOrGet, ObjectIntern.getAndIncrement, ObjectIntern.add,
        GosStore.addSlot, hc, hs, h]
  · rw [if_neg hc] at h ⊢
    simp [ObjectIntern.AddOrGet, ObjectIntern.getAndIncrement, ObjectIntern.add,
      GosStore.addSlot, hc, h]

theorem AddOrGetString_state (oi : ObjectIntern) (b : List Nat) (safe : Bool) :
    (oi.AddOrGetString b safe).2 = (oi.AddOrGet b safe).2 := by
  by_cases hc : oi.conf.Compression = CompressionType.None
  · cases hl : lookupKey oi.objIndex b <;> by_cases hs : safe = true <;>
      simp [ObjectIntern.AddOrGetString, ObjectIntern.AddOrGet,
        ObjectIntern.getAndIncrement, ObjectIntern.add, hc, hs, hl]
  · cases hl : lookupKey oi.objIndex (oi.compress b) <;>
      simp [ObjectIntern.AddOrGetString, ObjectIntern.AddOrGet,
        ObjectIntern.getAndIncrement, ObjectIntern.add, hc, hl]

/-! ## Repeated interning from a fresh engine -/

theorem mod_succ_u32 (k : Nat) : (k % u32Mod + 1) % u32Mod = (k + 1) % u32Mod := by
  unfold u32Mod
  omega

theorem one_mod_u32 : 1 % u32Mod = 1 := by
  unfold u32Mod
  omega

theorem iter_state (c : ObjectInternConfig) (cf : List Nat → List Nat)
    (df : List Nat → Except GoiErr (List Nat)) (b : List Nat) (safe : Bool) :
    ∀ k, 1 ≤ k →
      addOrGetIter (freshEngine c cf df) b safe k =
        ⟨c, ⟨[(1, ⟨k % u32Mod, (freshEngine c cf df).canon b⟩)], 2, []⟩,
          [((freshEngine c cf df).canon b, 1)], cf, df⟩ := by
  intro k hk
  induction k with
  | zero => omega
  | succ k ih =>
    by_cases hk1 : 1 ≤ k
    · have hst := ih hk1
      unfold addOrGetIter
      rw [hst]
      rw [AddOrGet_hit _ b safe 1
        (by simp [lookupKey, ObjectIntern.canon, freshEngine])]
      simp [GosStore.updRC, mod_succ_u32]
    · have hk0 : k = 0 := by omega
      subst hk0
      show (ObjectIntern.AddOrGet (freshEngine c cf df) b safe).2 = _
      rw [AddOrGet_miss _ b safe (by simp [freshEngine, lookupKey, newGosStore])]
      simp [freshEngine, newGosStore, GosStore.addSlot, insertKey, eraseKey,
        one_mod_u32]

theorem iter_result (c : ObjectInternConfig) (cf : List Nat → List Nat)
    (df : List Nat → Except GoiErr (List Nat)) (b : List Nat) (safe : Bool) :
    ∀ k, ((addOrGetIter (freshEngine c cf df) b safe k).AddOrGet b safe).1 = .ok 1 := by
  intro k
  by_cases hk : 1 ≤ k
  · rw [iter_state c cf df b safe k hk]
    rw [AddOrGet_hit _ b safe 1
      (by simp [lookupKey, ObjectIntern.canon, freshEngine])]
  · have hk0 : k = 0 := by omega
    subst hk0
    show (ObjectIntern.AddOrGet (freshEngine c cf df) b safe).1 = _
    rw [AddOrGet_miss _ b safe (by simp [freshEngine, lookupKey, newGosStore])]
    simp [freshEngine, newGosStore]

/-! ## Characterization of Delete -/

theorem Delete_absent (oi : ObjectIntern) (a : Nat) (h : oi.store.get a = none) :
    oi.Delete a = ((false, some .notFound), oi) := by
  simp [ObjectIntern.Delete, h]

theorem Delete_dec (oi : ObjectIntern) (a : Nat) (sl : Slot)
    (h : oi.store.get a = some sl) (hrc : sl.refcnt > 1) :
    oi.Delete a = ((false, none),
      { oi with store := oi.store.updRC a (u32Mod - 1) }) := by
  simp [ObjectIntern.Delete, h, hrc]

theorem Delete_remove_ok (oi : ObjectIntern) (a : Nat) (sl : Slot) (st' : GosStore)
    (h : oi.store.get a = some sl) (hrc : ¬ sl.refcnt > 1)
    (hdel : oi.store.del a = .ok st') :
    oi.Delete a = ((true, none),
      { oi with objIndex := eraseKey oi.objIndex sl.payload, store := st' }) := by
  simp [ObjectIntern.Delete, h, hrc, hdel]

theorem Delete_remove_err (oi : ObjectIntern) (a : Nat) (sl : Slot) (e : GoiErr)
    (h : oi.store.get a = some sl) (hrc : ¬ sl.refcnt > 1)
    (hdel : oi.store.del a = .error e) :
    oi.Delete a = ((false, some e),
      { oi with objIndex := eraseKey oi.objIndex sl.payload }) := by
  simp [ObjectIntern.Delete, h, hrc, hdel]

theorem deleteIter_succ_front (oi : ObjectIntern) (a : Nat) :
    ∀ m, deleteIter oi a (m + 1) = deleteIter (oi.Delete a).2 a m := by
  intro m
  induction m with
  | zero => rfl
  | succ m ih =>
    show ((deleteIter oi a (m + 1)).Delete a).2 = _
    rw [ih]
    rfl

theorem deleteIter_stuck (oi : ObjectIntern) (a : Nat) (h : oi.store.get a = none) :
    ∀ m, deleteIter oi a m = oi := by
  intro m
  induction m with
  | zero => rfl
  | succ m ih =>
    show ((deleteIter oi a m).Delete a).2 = oi
    rw [ih, Delete_absent oi a h]

theorem deleteIter_state (c : ObjectInternConfig) (cf : List Nat → List Nat)
    (df : List Nat → Except GoiErr (List Nat)) (cb : List Nat) (k : Nat)
    (hku : k < u32Mod) :
    ∀ j, j ≤ k - 1 →
      deleteIter ⟨c, ⟨[(1, ⟨k, cb⟩)], 2, []⟩, [(cb, 1)], cf, df⟩ 1 j =
        ⟨c, ⟨[(1, ⟨k - j, cb⟩)], 2, []⟩, [(cb, 1)], cf, df⟩ := by
  intro j hj
  induction j with
  | zero => rfl
  | succ j ih =>
    have hj' : j ≤ k - 1 := by omega
    have hst := ih hj'
    have hrge : k - j > 1 := by omega
    show ((deleteIter _ 1 j).Delete 1).2 = _
    rw [hst]
    rw [Delete_dec _ 1 ⟨k - j, cb⟩ (by simp [GosStore.get, getSlot]) hrge]
    have harith : (k - j + (u32Mod - 1)) % u32Mod = k - (j + 1) := by
      unfold u32Mod at *
      omega
    simp [GosStore.updRC, harith]

/-- C1: for every byte sequence `b`, repeated `AddOrGet(b)` calls on a
fresh engine all return the same address (address 1 of the model's
allocator): the first call stores the canonical form of `b` with
reference count 1, every further call returns the first call's
address, and after `k` calls `RefCnt` on that address returns
`k` modulo `2^32`. -/
theorem claim_C1 (c : ObjectInternConfig) (cf : List Nat → List Nat)
    (df : List Nat → Except GoiErr (List Nat)) (b : List Nat) (safe : Bool)
    (k : Nat) (hk : 1 ≤ k) :
    (∀ j, j < k →
      ((addOrGetIter (freshEngine c cf df) b safe j).AddOrGet b safe).1 = .ok 1) ∧
    (addOrGetIter (freshEngine c cf df) b safe 1).store.get 1 =
      some ⟨1, (freshEngine c cf df).canon b⟩ ∧
    (addOrGetIter (freshEngine c cf df) b safe k).RefCnt 1 = .ok (k % u32Mod) := by
  refine ⟨fun j _ => iter_result c cf df b safe j, ?_, ?_⟩
  · rw [iter_state c cf df b safe 1 (by omega)]
    simp [GosStore.get, getSlot, one_mod_u32]
  · rw [iter_state c cf df b safe k hk]
    simp [ObjectIntern.RefCnt, GosStore.get, getSlot]

/-- Witness for C1 at a concrete engine and input. -/
theorem claim_C1_witness :
    1 ≤ 3 ∧
    (addOrGetIter (freshEngine ⟨CompressionType.None, 100⟩ (fun x => x)
        (fun x => .ok x)) [42] false 3).RefCnt 1 = .ok (3 % u32Mod) :=
  ⟨by omega,
    (claim_C1 ⟨CompressionType.None, 100⟩ (fun x => x) (fun x => .ok x)
      [42] false 3 (by omega)).2.2⟩

/-- C2 (amended with the 32-bit bound): for `1 ≤ k < 2^32`, after `k`
calls `AddOrGet(b)` on a fresh engine and `k - 1` calls `Delete` on
the returned address, the object is still present with `RefCnt = 1`;
the `k`-th `Delete` returns `(true, nil)` and removes the object from
index and store; any further `Delete` returns `(false, NotFound)`. -/
theorem claim_C2 (c : ObjectInternConfig) (cf : List Nat → List Nat)
    (df : List Nat → Except GoiErr (List Nat)) (b : List Nat) (safe : Bool)
    (k : Nat) (hk : 1 ≤ k) (hku : k < u32Mod)
    (oiK oiD : ObjectIntern)
    (hK : oiK = addOrGetIter (freshEngine c cf df) b safe k)
    (hD : oiD = deleteIter oiK 1 (k - 1)) :
    (∀ j, j < k →
      ((addOrGetIter (freshEngine c cf df) b safe j).AddOrGet b safe).1 = .ok 1) ∧
    (∀ j, j < k - 1 → ((deleteIter oiK 1 j).Delete 1).1 = (false, none)) ∧
    oiD.store.get 1 = some ⟨1, (freshEngine c cf df).canon b⟩ ∧
    oiD.RefCnt 1 = .ok 1 ∧
    (oiD.Delete 1).1 = (true, none) ∧
    (oiD.Delete 1).2.objIndex = [] ∧
    (oiD.Delete 1).2.store.get 1 = none ∧
    ((oiD.Delete 1).2.Delete 1).1 = (false, some .notFound) := by
  have hmod : k % u32Mod = k := by
    unfold u32Mod at hku ⊢
    omega
  have hSk : oiK = ⟨c, ⟨[(1, ⟨k, (freshEngine c cf df).canon b⟩)], 2, []⟩,
      [((freshEngine c cf df).canon b, 1)], cf, df⟩ := by
    rw [hK, iter_state c cf df b safe k hk, hmod]
  have hS1 : oiD = ⟨c, ⟨[(1, ⟨1, (freshEngine c cf df).canon b⟩)], 2, []⟩,
      [((freshEngine c cf df).canon b, 1)], cf, df⟩ := by
    rw [hD, hSk, deleteIter_state c cf df _ k hku (k - 1) (le_refl _)]
    have h1 : k - (k - 1) = 1 := by omega
    rw [h1]
  have hget : oiD.store.get 1 = some ⟨1, (freshEngine c cf df).canon b⟩ := by
    rw [hS1]
    simp [GosStore.get, getSlot]
  have hdel : oiD.store.del 1 = .ok ⟨[], 2, []⟩ := by
    rw [hS1]
    rfl
  have hrem := Delete_remove_ok oiD 1 ⟨1, (freshEngine c cf df).canon b⟩ ⟨[], 2, []⟩
    hget (by simp) hdel
  refine ⟨fun j _ => iter_result c cf df b safe j, ?_, hget, ?_, ?_, ?_, ?_, ?_⟩
  · intro j hj
    rw [hSk, deleteIter_state c cf df _ k hku j (by omega)]
    rw [Delete_dec _ 1 ⟨k - j, (freshEngine c cf df).canon b⟩
      (by simp [GosStore.get, getSlot]) (by show k - j > 1; omega)]
  · rw [hS1]
    simp [ObjectIntern.RefCnt, GosStore.get, getSlot]
  · rw [hrem]
  · rw [hrem, hS1]
    simp [eraseKey]
  · rw [hrem]
    rfl
  · rw [hrem]
    rw [Delete_absent _ 1 (by rfl)]

/-- Witness for C2 at a concrete engine, input and count. -/
theorem claim_C2_witness :
    1 ≤ 2 ∧ 2 < u32Mod ∧
    ((deleteIter (addOrGetIter (freshEngine ⟨CompressionType.None, 100⟩
        (fun x => x) (fun x => .ok x)) [9] false 2) 1 1).Delete 1).1 = (true, none) :=
  ⟨by omega, by unfold u32Mod; omega,
    (claim_C2 ⟨CompressionType.None, 100⟩ (fun x => x) (fun x => .ok x) [9] false 2
      (by omega) (by unfold u32Mod; omega) _ _ rfl rfl).2.2.2.2.1⟩

/-- Counterexample to C2 as frozen (which quantifies over every
`k ≥ 1`): at `k = 2^32` the reference count word has wrapped to 0, so
the very first `Delete` already removes the object, and after `k - 1`
deletes `RefCnt` on the address returned by every `AddOrGet` call
(address 1) yields `NotFound` instead of the claimed 1. -/
theorem claim_C2_counterexample :
    (∀ j, ((addOrGetIter (freshEngine ⟨CompressionType.None, 100⟩ (fun x => x)
        (fun x => .ok x)) [0] false j).AddOrGet [0] false).1 = .ok 1) ∧
    (deleteIter (addOrGetIter (freshEngine ⟨CompressionType.None, 100⟩ (fun x => x)
        (fun x => .ok x)) [0] false u32Mod) 1 (u32Mod - 1)).RefCnt 1 =
      .error .notFound := by
  constructor
  · exact iter_result _ _ _ _ _
  · have hSk := iter_state ⟨CompressionType.None, 100⟩ (fun x => x) (fun x => .ok x)
      [0] false u32Mod (by unfold u32Mod; omega)
    rw [Nat.mod_self] at hSk
    rw [hSk]
    have h1 : u32Mod - 1 = (u32Mod - 2) + 1 := by
      unfold u32Mod
      omega
    rw [h1, deleteIter_succ_front]
    rw [Delete_remove_ok _ 1 ⟨0, (freshEngine ⟨CompressionType.None, 100⟩
        (fun x => x) (fun x => .ok x)).canon [0]⟩ ⟨[], 2, []⟩
      (by simp [GosStore.get, getSlot]) (by simp) (by rfl)]
    rw [deleteIter_stuck _ 1 (by rfl)]
    rfl

/-! ## The batch deletion loop and the caller's array -/

theorem take_succ_set_self {α : Type} (l : List α) (c : Nat) (p : α)
    (h : c < l.length) : (l.set c p).take (c + 1) = l.take c ++ [p] := by
  induction l generalizing c with
  | nil => simp at h
  | cons hd tl ih =>
    cases c with
    | zero => simp
    | succ c =>
      simp only [List.set_cons_succ, List.take_succ_cons]
      rw [ih c (by simp at h; omega)]
      simp

theorem drop_set_lt {α : Type} (l : List α) (c n : Nat) (p : α) (h : c < n) :
    (l.set c p).drop n = l.drop n := by
  rw [List.drop_set, if_pos h]

theorem getD_eq_getElem_of_lt (l : List Nat) (i : Nat) (h : i < l.length) :
    l.getD i 0 = l[i] := by
  simp [List.getD_eq_getElem?_getD, List.getElem?_eq_getElem h]

theorem dbLoop_eq_aux :
    ∀ (n : Nat) (oi : ObjectIntern) (backing : List Nat) (i c : Nat),
      backing.length - i ≤ n → c ≤ i →
      dbLoop oi backing i c =
        (backing.take c ++ (dbCollect oi (backing.drop i)).1 ++
           backing.drop (c + (dbCollect oi (backing.drop i)).1.length),
         c + (dbCollect oi (backing.drop i)).1.length,
         (dbCollect oi (backing.drop i)).2) := by
  intro n
  induction n with
  | zero =>
    intro oi backing i c hn hc
    have hge : ¬ i < backing.length := by omega
    have hdrop : backing.drop i = [] := List.drop_eq_nil_of_le (by omega)
    unfold dbLoop
    rw [dif_neg hge, hdrop]
    simp [dbCollect]
  | succ n ih =>
    intro oi backing i c hn hc
    by_cases h : i < backing.length
    · have hp : backing.getD i 0 = backing[i] := getD_eq_getElem_of_lt backing i h
      have hdrop : backing.drop i = backing[i] :: backing.drop (i + 1) :=
        List.drop_eq_getElem_cons h
      unfold dbLoop
      rw [dif_pos h, hp]
      cases hget : oi.store.get backing[i] with
      | none =>
        simp only [hget]
        rw [ih oi backing (i + 1) c (by omega) (by omega), hdrop]
        simp [dbCollect, hget]
      | some sl =>
        simp only [hget]
        by_cases hrc : sl.refcnt > 1
        · simp only [if_pos hrc]
          rw [ih _ backing (i + 1) c (by omega) (by omega), hdrop]
          simp [dbCollect, hget, hrc]
        · simp only [if_neg hrc]
          rw [ih oi (backing.set c backing[i]) (i + 1) (c + 1)
            (by simp only [List.length_set]; omega) (by omega)]
          rw [drop_set_lt backing c (i + 1) backing[i] (by omega)]
          rw [hdrop]
          simp only [dbCollect, hget, if_neg hrc]
          rw [take_succ_set_self backing c backing[i] (by omega)]
          rw [drop_set_lt backing c _ backing[i] (by omega)]
          have harith : c + 1 + (dbCollect oi (backing.drop (i + 1))).1.length =
              c + ((dbCollect oi (backing.drop (i + 1))).1.length + 1) := by
            omega
          rw [harith]
          simp
    · have hdrop : backing.drop i = [] := List.drop_eq_nil_of_le (by omega)
      unfold dbLoop
      rw [dif_neg h, hdrop]
      simp [dbCollect]

theorem dbLoop_full (oi : ObjectIntern) (backing : List Nat) :
    dbLoop oi backing 0 0 =
      ((dbCollect oi backing).1 ++ backing.drop (dbCollect oi backing).1.length,
       (dbCollect oi backing).1.length, (dbCollect oi backing).2) := by
  have := dbLoop_eq_aux backing.length oi backing 0 0 (by omega) (by omega)
  simpa using this

theorem dbLoopNC_eq_aux :
    ∀ (n : Nat) (oi : ObjectIntern) (backing : List Nat) (i c : Nat),
      backing.length - i ≤ n → c ≤ i →
      dbLoopNC oi backing i c =
        (backing.take c ++ (dbCollectNC oi (backing.drop i)).1 ++
           backing.drop (c + (dbCollectNC oi (backing.drop i)).1.length),
         c + (dbCollectNC oi (backing.drop i)).1.length,
         (dbCollectNC oi (backing.drop i)).2) := by
  intro n
  induction n with
  | zero =>
    intro oi backing i c hn hc
    have hge : ¬ i < backing.length := by omega
    have hdrop : backing.drop i = [] := List.drop_eq_nil_of_le (by omega)
    unfold dbLoopNC
    rw [dif_neg hge, hdrop]
    simp [dbCollectNC]
  | succ n ih =>
    intro oi backing i c hn hc
    by_cases h : i < backing.length
    · have hp : backing.getD i 0 = backing[i] := getD_eq_getElem_of_lt backing i h
      have hdrop : backing.drop i = backing[i] :: backing.drop (i + 1) :=
        List.drop_eq_getElem_cons h
      unfold dbLoopNC
      rw [dif_pos h, hp]
      by_cases hrc : oi.rawRC backing[i] > 1
      · simp only [if_pos hrc]
        rw [ih _ backing (i + 1) c (by omega) (by omega), hdrop]
        simp [dbCollectNC, hrc]
      · simp only [if_neg hrc]
        rw [ih oi (backing.set c backing[i]) (i + 1) (c + 1)
          (by simp only [List.length_set]; omega) (by omega)]
        rw [drop_set_lt backing c (i + 1) backing[i] (by omega)]
        rw [hdrop]
        simp only [dbCollectNC, if_neg hrc]
        rw [take_succ_set_self backing c backing[i] (by omega)]
        rw [drop_set_lt backing c _ backing[i] (by omega)]
        have harith : c + 1 + (dbCollectNC oi (backing.drop (i + 1))).1.length =
            c + ((dbCollectNC oi (backing.drop (i + 1))).1.length + 1) := by
          omega
        rw [harith]
        simp
    · have hdrop : backing.drop i = [] := List.drop_eq_nil_of_le (by omega)
      unfold dbLoopNC
      rw [dif_neg h, hdrop]
      simp [dbCollectNC]

theorem dbLoopNC_full (oi : ObjectIntern) (backing : List Nat) :
    dbLoopNC oi backing 0 0 =
      ((dbCollectNC oi backing).1 ++ backing.drop (dbCollectNC oi backing).1.length,
       (dbCollectNC oi backing).1.length, (dbCollectNC oi backing).2) := by
  have := dbLoopNC_eq_aux backing.length oi backing 0 0 (by omega) (by omega)
  simpa using this

theorem DeleteBatch_array (oi : ObjectIntern) (ptrs : List Nat) :
    (oi.DeleteBatch ptrs).2 =
      (dbCollect oi ptrs).1 ++ ptrs.drop (dbCollect oi ptrs).1.length := by
  unfold ObjectIntern.DeleteBatch
  rw [dbLoop_full]
  by_cases hc : (dbCollect oi ptrs).1.length > 0 <;> simp [hc]

theorem DeleteBatchNC_array (oi : ObjectIntern) (ptrs : List Nat) :
    (oi.DeleteBatchNC ptrs).2 =
      (dbCollectNC oi ptrs).1 ++ ptrs.drop (dbCollectNC oi ptrs).1.length := by
  unfold ObjectIntern.DeleteBatchNC
  rw [dbLoopNC_full]
  by_cases hc : (dbCollectNC oi ptrs).1.length > 0 <;> simp [hc]

/-- C10: the first phase of `DeleteBatch` builds its to-delete list in
the backing array of the caller's `ptrs` slice (`toDelete := ptrs[:0]`
plus `append`), so after the call the caller's array holds the
collected addresses as an initial segment, the original values
surviving only beyond it; `DeleteBatchUnsafe` (here `DeleteBatchNC`)
does the same.  The last conjunct shows a concrete run whose array is
really overwritten. -/
theorem claim_C10 :
    (∀ (oi : ObjectIntern) (ptrs : List Nat),
      (oi.DeleteBatch ptrs).2 =
        (dbCollect oi ptrs).1 ++ ptrs.drop (dbCollect oi ptrs).1.length) ∧
    (∀ (oi : ObjectIntern) (ptrs : List Nat),
      (oi.DeleteBatchNC ptrs).2 =
        (dbCollectNC oi ptrs).1 ++ ptrs.drop (dbCollectNC oi ptrs).1.length) ∧
    ((⟨⟨CompressionType.None, 100⟩, ⟨[(1, ⟨1, [7]⟩)], 2, []⟩, [([7], 1)],
        fun x => x, fun x => .ok x⟩ : ObjectIntern).DeleteBatch [5, 1]).2 = [1, 1] := by
  refine ⟨DeleteBatch_array, DeleteBatchNC_array, ?_⟩
  rw [DeleteBatch_array]
  rfl

/-! ## Preservation of the structural invariant -/

theorem getSlot_mem (slots : List (Nat × Slot)) (a : Nat) (sl : Slot)
    (h : getSlot slots a = some sl) : (a, sl) ∈ slots := by
  induction slots with
  | nil => exact Option.noConfusion h
  | cons e rest ih =>
    obtain ⟨b, sl'⟩ := e
    rw [getSlot_cons] at h
    by_cases hba : b = a
    · rw [if_pos hba] at h
      injection h with h2
      subst hba
      subst h2
      exact List.mem_cons_self _ _
    · rw [if_neg hba] at h
      exact List.mem_cons_of_mem _ (ih h)

theorem entry_addr_lt (oi : ObjectIntern) (h : Inv oi) (e : List Nat × Nat)
    (he : e ∈ oi.objIndex) : e.2 < oi.store.next := by
  obtain ⟨h1, _, h3, _⟩ := h
  have hp := h1 e he
  unfold payloadAt GosStore.get at hp
  cases hg : getSlot oi.store.slots e.2 with
  | none => rw [hg] at hp; exact Option.noConfusion hp
  | some sl => exact h3 _ (getSlot_mem _ _ _ hg)

theorem u32Mod_pos : 0 < u32Mod := by
  unfold u32Mod
  omega

theorem one_lt_u32 : 1 < u32Mod := by
  unfold u32Mod
  omega

theorem Inv_updRC (oi : ObjectIntern) (a delta : Nat) (h : Inv oi) :
    Inv { oi with store := oi.store.updRC a delta } := by
  obtain ⟨h1, h2, h3, h4⟩ := h
  refine ⟨?_, h2, ?_, ?_⟩
  · intro e he
    show payloadAt (oi.store.updRC a delta) e.2 = some e.1
    rw [get_updRC_payload]
    exact h1 e he
  · intro s hs
    show s.1 < oi.store.next
    obtain ⟨s0, hs0, hmap⟩ := List.mem_map.1 hs
    have hfst : s.1 = s0.1 := by
      by_cases hcase : s0.1 = a
      · rw [if_pos hcase] at hmap
        rw [← hmap]
      · rw [if_neg hcase] at hmap
        rw [← hmap]
    rw [hfst]
    exact h3 s0 hs0
  · intro s hs
    obtain ⟨s0, hs0, hmap⟩ := List.mem_map.1 hs
    by_cases hcase : s0.1 = a
    · rw [if_pos hcase] at hmap
      rw [← hmap]
      exact Nat.mod_lt _ u32Mod_pos
    · rw [if_neg hcase] at hmap
      rw [← hmap]
      exact h4 s0 hs0

theorem Inv_add (oi : ObjectIntern) (obj : List Nat) (h : Inv oi) :
    Inv (oi.add obj).2 := by
  obtain ⟨h1, h2, h3, h4⟩ := h
  refine ⟨?_, ?_, ?_, ?_⟩
  · intro e he
    simp only [ObjectIntern.add, GosStore.addSlot, insertKey] at he ⊢
    rcases List.mem_cons.1 he with heq | hmem
    · subst heq
      simp [payloadAt, GosStore.get, getSlot]
    · obtain ⟨hin, hne⟩ := mem_eraseKey _ _ _ hmem
      have hlt : e.2 < oi.store.next := entry_addr_lt oi ⟨h1, h2, h3, h4⟩ e hin
      have hp := h1 e hin
      unfold payloadAt GosStore.get at hp ⊢
      rw [getSlot_cons, if_neg (by omega)]
      exact hp
  · simp only [ObjectIntern.add, insertKey, List.map_cons]
    refine List.Nodup.cons ?_ ?_
    · intro hmem
      obtain ⟨e, he, hfst⟩ := List.mem_map.1 hmem
      exact (mem_eraseKey _ _ _ he).2 hfst
    · exact h2.sublist (List.Sublist.map _ (List.filter_sublist _))
  · intro s hs
    simp only [ObjectIntern.add, GosStore.addSlot] at hs ⊢
    rcases List.mem_cons.1 hs with heq | hmem
    · subst heq
      omega
    · have := h3 s hmem
      omega
  · intro s hs
    simp only [ObjectIntern.add, GosStore.addSlot] at hs
    rcases List.mem_cons.1 hs with heq | hmem
    · subst heq
      exact one_lt_u32
    · exact h4 s hmem

theorem Inv_eraseKey (oi : ObjectIntern) (k : List Nat) (h : Inv oi) :
    Inv { oi with objIndex := eraseKey oi.objIndex k } := by
  obtain ⟨h1, h2, h3, h4⟩ := h
  refine ⟨?_, ?_, h3, h4⟩
  · intro e he
    exact h1 e (mem_eraseKey _ _ _ he).1
  · exact h2.sublist (List.Sublist.map _ (List.filter_sublist _))

theorem Inv_removeSlot (oi : ObjectIntern) (a : Nat) (sl : Slot) (st' : GosStore)
    (h : Inv oi) (hget : oi.store.get a = some sl)
    (hdel : oi.store.del a = .ok st') :
    Inv { oi with objIndex := eraseKey oi.objIndex sl.payload, store := st' } := by
  obtain ⟨h1, h2, h3, h4⟩ := h
  obtain ⟨hnone, hother, hnext, _⟩ := del_ok_get _ _ _ hdel
  have hslots : st'.slots = oi.store.slots.filter (fun e => e.1 ≠ a) := by
    unfold GosStore.del at hdel
    by_cases hf : oi.store.failing.contains a = true
    · rw [if_pos hf] at hdel
      exact Except.noConfusion hdel
    · rw [if_neg hf] at hdel
      unfold GosStore.get at hget
      rw [hget] at hdel
      injection hdel with h2'
      rw [← h2']
  refine ⟨?_, ?_, ?_, ?_⟩
  · intro e he
    obtain ⟨hin, hne⟩ := mem_eraseKey _ _ _ he
    have hp := h1 e hin
    have hea : e.2 ≠ a := by
      intro heq
      apply hne
      rw [heq] at hp
      unfold payloadAt at hp
      rw [hget] at hp
      injection hp with hp2
      exact hp2.symm
    show payloadAt st' e.2 = some e.1
    unfold payloadAt
    rw [hother e.2 hea]
    exact hp
  · exact h2.sublist (List.Sublist.map _ (List.filter_sublist _))
  · intro s hs
    show s.1 < st'.next
    rw [hnext]
    rw [hslots] at hs
    exact h3 s (List.mem_of_mem_filter hs)
  · intro s hs
    rw [hslots] at hs
    exact h4 s (List.mem_of_mem_filter hs)

theorem Inv_AddOrGet (oi : ObjectIntern) (b : List Nat) (safe : Bool) (h : Inv oi) :
    Inv (oi.AddOrGet b safe).2 := by
  cases hl : lookupKey oi.objIndex (oi.canon b) with
  | some a =>
    rw [AddOrGet_hit _ _ safe _ hl]
    exact Inv_updRC oi a 1 h
  | none =>
    rw [AddOrGet_miss _ _ safe hl]
    exact Inv_add oi (oi.canon b) h

theorem Inv_AddOrGetString (oi : ObjectIntern) (b : List Nat) (safe : Bool)
    (h : Inv oi) : Inv (oi.AddOrGetString b safe).2 := by
  rw [AddOrGetString_state]
  exact Inv_AddOrGet oi b safe h

theorem Inv_Delete (oi : ObjectIntern) (a : Nat) (h : Inv oi) :
    Inv (oi.Delete a).2 := by
  cases hget : oi.store.get a with
  | none =>
    rw [Delete_absent _ _ hget]
    exact h
  | some sl =>
    by_cases hrc : sl.refcnt > 1
    · rw [Delete_dec _ _ _ hget hrc]
      exact Inv_updRC _ _ _ h
    · cases hdel : oi.store.del a with
      | ok st' =>
        rw [Delete_remove_ok _ _ _ _ hget hrc hdel]
        exact Inv_removeSlot _ _ _ _ h hget hdel
      | error e =>
        rw [Delete_remove_err _ _ _ _ hget hrc hdel]
        exact Inv_eraseKey _ _ h

theorem Inv_deleteStep (oi : ObjectIntern) (p : Nat) (h : Inv oi) :
    Inv (oi.deleteStep p) := by
  cases hget : oi.store.get p with
  | none =>
    simp only [ObjectIntern.deleteStep, hget]
    exact h
  | some sl =>
    by_cases hrc : sl.refcnt > 1
    · simp only [ObjectIntern.deleteStep, hget, if_pos hrc]
      exact Inv_updRC _ _ _ h
    · cases hdel : oi.store.del p with
      | ok st' =>
        simp only [ObjectIntern.deleteStep, hget, if_neg hrc, hdel]
        exact Inv_removeSlot _ _ _ _ h hget hdel
      | error e =>
        simp only [ObjectIntern.deleteStep, hget, if_neg hrc, hdel]
        exact Inv_eraseKey _ _ h

theorem Inv_deleteList (ps : List Nat) :
    ∀ oi : ObjectIntern, Inv oi → Inv (oi.deleteList ps) := by
  induction ps with
  | nil => exact fun oi h => h
  | cons p ps ih =>
    intro oi h
    exact ih _ (Inv_deleteStep oi p h)

theorem Inv_dbCollect (ps : List Nat) :
    ∀ oi : ObjectIntern, Inv oi → Inv (dbCollect oi ps).2 := by
  induction ps with
  | nil => exact fun oi h => h
  | cons p ps ih =>
    intro oi h
    cases hget : oi.store.get p with
    | none =>
      simp only [dbCollect, hget]
      exact ih oi h
    | some sl =>
      by_cases hrc : sl.refcnt > 1
      · simp only [dbCollect, hget, if_pos hrc]
        exact ih _ (Inv_updRC _ _ _ h)
      · simp only [dbCollect, hget, if_neg hrc]
        exact ih oi h

theorem Inv_dbCollectNC (ps : List Nat) :
    ∀ oi : ObjectIntern, Inv oi → Inv (dbCollectNC oi ps).2 := by
  induction ps with
  | nil => exact fun oi h => h
  | cons p ps ih =>
    intro oi h
    by_cases hrc : oi.rawRC p > 1
    · simp only [dbCollectNC, if_pos hrc]
      exact ih _ (Inv_updRC _ _ _ h)
    · simp only [dbCollectNC, if_neg hrc]
      exact ih oi h

theorem Inv_DeleteBatch (oi : ObjectIntern) (ptrs : List Nat) (h : Inv oi) :
    Inv (oi.DeleteBatch ptrs).1 := by
  unfold ObjectIntern.DeleteBatch
  rw [dbLoop_full]
  dsimp only
  split
  · exact Inv_deleteList _ _ (Inv_dbCollect ptrs oi h)
  · exact Inv_dbCollect ptrs oi h

theorem Inv_DeleteBatchNC (oi : ObjectIntern) (ptrs : List Nat) (h : Inv oi) :
    Inv (oi.DeleteBatchNC ptrs).1 := by
  unfold ObjectIntern.DeleteBatchNC
  rw [dbLoopNC_full]
  dsimp only
  split
  · exact Inv_deleteList _ _ (Inv_dbCollectNC ptrs oi h)
  · exact Inv_dbCollectNC ptrs oi h

theorem Inv_DeleteNC (oi : ObjectIntern) (a : Nat) (h : Inv oi) :
    Inv (oi.DeleteNC a).2 := by
  by_cases hraw : oi.rawRC a > 1
  · simp only [ObjectIntern.DeleteNC, if_pos hraw]
    exact Inv_updRC _ _ _ h
  · cases hget : oi.store.get a with
    | none =>
      simp only [ObjectIntern.DeleteNC, if_neg hraw, hget]
      exact h
    | some sl =>
      by_cases hrc : sl.refcnt > 1
      · simp only [ObjectIntern.DeleteNC, if_neg hraw, hget, if_pos hrc]
        exact Inv_updRC _ _ _ h
      · cases hdel : oi.store.del a with
        | ok st' =>
          simp only [ObjectIntern.DeleteNC, if_neg hraw, hget, if_neg hrc, hdel]
          exact Inv_removeSlot _ _ _ _ h hget hdel
        | error e =>
          simp only [ObjectIntern.DeleteNC, if_neg hraw, hget, if_neg hrc, hdel]
          exact Inv_eraseKey _ _ h

theorem Inv_DeleteByByte (oi : ObjectIntern) (b : List Nat) (h : Inv oi) :
    Inv (oi.DeleteByByte b).2 := by
  unfold ObjectIntern.DeleteByByte
  by_cases hc : oi.conf.Compression ≠ CompressionType.None
  · rw [if_pos hc]
    cases hl : lookupKey oi.objIndex (oi.compress b) with
    | none => exact h
    | some a => exact Inv_Delete oi a h
  · rw [if_neg hc]
    cases hl : lookupKey oi.objIndex b with
    | none => exact h
    | some a => exact Inv_Delete oi a h

theorem Inv_IncRefCnt (oi : ObjectIntern) (a : Nat) (h : Inv oi) :
    Inv (oi.IncRefCnt a).2 := by
  cases hget : oi.store.get a with
  | none =>
    simp only [ObjectIntern.IncRefCnt, hget]
    exact h
  | some sl =>
    simp only [ObjectIntern.IncRefCnt, hget]
    exact Inv_updRC _ _ _ h

theorem Inv_IncRefCntByString (oi : ObjectIntern) (b : List Nat) (h : Inv oi) :
    Inv (oi.IncRefCntByString b).2 := by
  unfold ObjectIntern.IncRefCntByString
  dsimp only
  cases hl : lookupKey oi.objIndex (if oi.conf.Compression ≠ CompressionType.None
      then oi.compress b else b) with
  | none =>
    simp only [hl]
    exact h
  | some a =>
    simp only [hl]
    exact Inv_IncRefCnt oi a h

theorem Inv_IncRefCntBatch (ps : List Nat) :
    ∀ oi : ObjectIntern, Inv oi → Inv (oi.IncRefCntBatch ps) := by
  induction ps with
  | nil => exact fun oi h => h
  | cons p ps ih =>
    intro oi h
    cases hget : oi.store.get p with
    | none =>
      simp only [ObjectIntern.IncRefCntBatch, hget]
      exact ih oi h
    | some sl =>
      simp only [ObjectIntern.IncRefCntBatch, hget]
      exact ih _ (Inv_updRC _ _ _ h)

theorem Inv_IncRefCntBatchNC (ps : List Nat) :
    ∀ oi : ObjectIntern, Inv oi → Inv (oi.IncRefCntBatchNC ps) := by
  induction ps with
  | nil => exact fun oi h => h
  | cons p ps ih =>
    intro oi h
    exact ih _ (Inv_updRC _ _ _ h)

theorem GetPtrFromByte_state (oi : ObjectIntern) (b : List Nat) :
    (oi.GetPtrFromByte b).2 = oi := by
  unfold ObjectIntern.GetPtrFromByte
  by_cases hc : oi.conf.Compression ≠ CompressionType.None
  · rw [if_pos hc]
    cases hl : lookupKey oi.objIndex (oi.compress b) <;> rfl
  · rw [if_neg hc]
    cases hl : lookupKey oi.objIndex b <;> rfl

theorem Inv_Reset (oi oi' : ObjectIntern) (h : oi.Reset = .ok oi') : Inv oi' := by
  unfold ObjectIntern.Reset at h
  cases hr : resetLoop oi.objIndex oi.store with
  | error e =>
    rw [hr] at h
    exact Except.noConfusion h
  | ok st =>
    rw [hr] at h
    injection h with h2
    subst h2
    refine ⟨?_, ?_, ?_, ?_⟩
    · intro e he
      simp at he
    · simp
    · intro s hs
      simp [newGosStore] at hs
    · intro s hs
      simp [newGosStore] at hs

/-- C3: the index-store invariant — every index entry references a
live slot whose payload bytes (the slot bytes with the 4 header bytes
stripped) equal the entry's key bytes — holds in a newly constructed
engine and is preserved by every state-changing operation of the
engine; and a removing `Delete` erases the index entry keyed by the
slot payload even when the subsequent slot free fails, i.e. the index
entry is gone before the slot is freed. -/
theorem claim_C3 (oi : ObjectIntern) (h : Inv oi) :
    (∀ c cf df oi0, newObjectIntern c cf df = some oi0 → Inv oi0) ∧
    (∀ b safe, Inv (oi.AddOrGet b safe).2) ∧
    (∀ b safe, Inv (oi.AddOrGetString b safe).2) ∧
    (∀ a, Inv (oi.Delete a).2) ∧
    (∀ a, Inv (oi.DeleteNC a).2) ∧
    (∀ b, Inv (oi.DeleteByByte b).2) ∧
    (∀ b, Inv (oi.DeleteByString b).2) ∧
    (∀ ps, Inv (oi.DeleteBatch ps).1) ∧
    (∀ ps, Inv (oi.DeleteBatchNC ps).1) ∧
    (∀ a, Inv (oi.IncRefCnt a).2) ∧
    (∀ a, Inv (oi.IncRefCntNC a)) ∧
    (∀ b, Inv (oi.IncRefCntByString b).2) ∧
    (∀ ps, Inv (oi.IncRefCntBatch ps)) ∧
    (∀ ps, Inv (oi.IncRefCntBatchNC ps)) ∧
    (∀ b, Inv (oi.GetPtrFromByte b).2) ∧
    (∀ oi', oi.Reset = .ok oi' → Inv oi') ∧
    (∀ a sl, oi.store.get a = some sl → ¬ sl.refcnt > 1 →
      lookupKey (oi.Delete a).2.objIndex sl.payload = none) := by
  refine ⟨?_, fun b safe => Inv_AddOrGet oi b safe h,
    fun b safe => Inv_AddOrGetString oi b safe h,
    fun a => Inv_Delete oi a h, fun a => Inv_DeleteNC oi a h,
    fun b => Inv_DeleteByByte oi b h, fun b => Inv_DeleteByByte oi b h,
    fun ps => Inv_DeleteBatch oi ps h, fun ps => Inv_DeleteBatchNC oi ps h,
    fun a => Inv_IncRefCnt oi a h, fun a => Inv_updRC oi a 1 h,
    fun b => Inv_IncRefCntByString oi b h,
    fun ps => Inv_IncRefCntBatch ps oi h, fun ps => Inv_IncRefCntBatchNC ps oi h,
    ?_, fun oi' hr => Inv_Reset oi oi' hr, ?_⟩
  · intro c cf df oi0 hnew
    unfold newObjectIntern at hnew
    cases hcc : c.Compression <;> rw [hcc] at hnew
    · injection hnew with h2
      subst h2
      exact ⟨fun e he => by simp at he, by simp, fun s hs => by simp [newGosStore] at hs,
        fun s hs => by simp [newGosStore] at hs⟩
    · injection hnew with h2
      subst h2
      exact ⟨fun e he => by simp at he, by simp, fun s hs => by simp [newGosStore] at hs,
        fun s hs => by simp [newGosStore] at hs⟩
    · exact Option.noConfusion hnew
  · intro b
    rw [GetPtrFromByte_state]
    exact h
  · intro a sl hget hrc
    cases hdel : oi.store.del a with
    | ok st' =>
      rw [Delete_remove_ok _ _ _ _ hget hrc hdel]
      exact lookupKey_eraseKey_self _ _
    | error e =>
      rw [Delete_remove_err _ _ _ _ hget hrc hdel]
      exact lookupKey_eraseKey_self _ _

/-- Witness for C3 at a concrete invariant-satisfying state. -/
theorem claim_C3_witness :
    Inv (⟨⟨CompressionType.None, 100⟩, ⟨[(1, ⟨1, [7]⟩)], 2, []⟩, [([7], 1)],
      fun x => x, fun x => .ok x⟩ : ObjectIntern) ∧
    Inv ((⟨⟨CompressionType.None, 100⟩, ⟨[(1, ⟨1, [7]⟩)], 2, []⟩, [([7], 1)],
      fun x => x, fun x => .ok x⟩ : ObjectIntern).Delete 1).2 := by
  have hInv : Inv (⟨⟨CompressionType.None, 100⟩, ⟨[(1, ⟨1, [7]⟩)], 2, []⟩, [([7], 1)],
      fun x => x, fun x => .ok x⟩ : ObjectIntern) := by
    refine ⟨?_, by simp, ?_, ?_⟩
    · intro e he
      simp only [List.mem_singleton] at he
      subst he
      rfl
    · intro s hs
      simp only [List.mem_singleton] at hs
      subst hs
      simp
    · intro s hs
      simp only [List.mem_singleton] at hs
      subst hs
      exact one_lt_u32
  exact ⟨hInv, (claim_C3 _ hInv).2.2.2.1 1⟩

/-! ## Round-trip properties -/

theorem lookupKey_mem (idx : List (List Nat × Nat)) (k : List Nat) (a : Nat)
    (h : lookupKey idx k = some a) : (k, a) ∈ idx := by
  induction idx with
  | nil => exact Option.noConfusion h
  | cons e rest ih =>
    obtain ⟨k0, a0⟩ := e
    rw [lookupKey_cons] at h
    by_cases h0 : k0 = k
    · rw [if_pos h0] at h
      injection h with h2
      subst h0
      subst h2
      exact List.mem_cons_self _ _
    · rw [if_neg h0] at h
      exact List.mem_cons_of_mem _ (ih h)

theorem payloadAt_get (st : GosStore) (a : Nat) (pl : List Nat)
    (h : payloadAt st a = some pl) :
    ∃ sl : Slot, st.get a = some sl ∧ sl.payload = pl := by
  unfold payloadAt at h
  cases hg : st.get a with
  | none =>
    rw [hg] at h
    exact Option.noConfusion h
  | some sl =>
    rw [hg] at h
    injection h with h2
    exact ⟨sl, rfl, h2⟩

theorem AddOrGet_post_get (oi : ObjectIntern) (b : List Nat) (safe : Bool)
    (a : Nat) (oi' : ObjectIntern) (h : Inv oi)
    (heq : oi.AddOrGet b safe = (.ok a, oi')) :
    payloadAt oi'.store a = some (oi.canon b) ∧
      lookupKey oi'.objIndex (oi.canon b) = some a ∧
      oi'.conf = oi.conf ∧ oi'.compress = oi.compress ∧
      oi'.decompress = oi.decompress := by
  cases hl : lookupKey oi.objIndex (oi.canon b) with
  | some a0 =>
    rw [AddOrGet_hit _ _ safe _ hl] at heq
    have hfst : (Except.ok a0 : Except GoiErr Nat) = .ok a := congrArg Prod.fst heq
    injection hfst with ha
    subst ha
    have hsnd : oi' = { oi with store := oi.store.updRC a0 1 } :=
      (congrArg Prod.snd heq).symm
    subst hsnd
    have hp := h.1 (oi.canon b, a0) (lookupKey_mem _ _ _ hl)
    refine ⟨?_, hl, rfl, rfl, rfl⟩
    show payloadAt (oi.store.updRC a0 1) a0 = some (oi.canon b)
    rw [get_updRC_payload]
    exact hp
  | none =>
    rw [AddOrGet_miss _ _ safe hl] at heq
    have hfst : (Except.ok oi.store.next : Except GoiErr Nat) = .ok a :=
      congrArg Prod.fst heq
    injection hfst with ha
    subst ha
    have hsnd := (congrArg Prod.snd heq).symm
    subst hsnd
    refine ⟨?_, lookupKey_insertKey_self _ _ _, rfl, rfl, rfl⟩
    show payloadAt (oi.store.addSlot ⟨1, oi.canon b⟩).2 oi.store.next = _
    unfold payloadAt
    rw [get_addSlot_self]
    rfl

theorem AddOrGet_preserves_payload (oi : ObjectIntern) (b : List Nat) (safe : Bool)
    (a : Nat) (pl : List Nat) (h : Inv oi)
    (hp : payloadAt oi.store a = some pl) :
    payloadAt (oi.AddOrGet b safe).2.store a = some pl := by
  cases hl : lookupKey oi.objIndex (oi.canon b) with
  | some a0 =>
    rw [AddOrGet_hit _ _ safe _ hl]
    show payloadAt (oi.store.updRC a0 1) a = some pl
    rw [get_updRC_payload]
    exact hp
  | none =>
    rw [AddOrGet_miss _ _ safe hl]
    obtain ⟨sl, hget, _⟩ := payloadAt_get _ _ _ hp
    have hlt : a < oi.store.next := h.2.2.1 (a, sl) (getSlot_mem _ _ _ hget)
    show payloadAt (oi.store.addSlot ⟨1, oi.canon b⟩).2 a = some pl
    unfold payloadAt
    rw [get_addSlot_ne _ _ _ (by omega)]
    exact hp

theorem Inv_fresh (c : ObjectInternConfig) (cf : List Nat → List Nat)
    (df : List Nat → Except GoiErr (List Nat)) : Inv (freshEngine c cf df) :=
  ⟨fun e he => by simp [freshEngine] at he, by simp [freshEngine],
    fun s hs => by simp [freshEngine, newGosStore] at hs,
    fun s hs => by simp [freshEngine, newGosStore] at hs⟩

/-- C5: decompression round-trips compression (the codec contract,
satisfied definitionally by the identity codec that `NewObjectIntern`
installs for `None`), and, in every compression mode, `ObjBytes` and
`ObjString` applied to the address returned by `AddOrGet(b)` both
recover exactly `b`. -/
theorem claim_C5 (oi : ObjectIntern) (h : Inv oi)
    (hrt : ∀ x, oi.decompress (oi.compress x) = .ok x) (b : List Nat) (safe : Bool) :
    oi.decompress (oi.compress b) = .ok b ∧
    (∀ a oi', oi.AddOrGet b safe = (.ok a, oi') →
      oi'.ObjBytes a = .ok b ∧ oi'.ObjString a = .ok b) := by
  refine ⟨hrt b, ?_⟩
  intro a oi' heq
  obtain ⟨hp, _, hconf, hcomp, hdecomp⟩ := AddOrGet_post_get oi b safe a oi' h heq
  obtain ⟨sl, hget, hpl⟩ := payloadAt_get _ _ _ hp
  unfold ObjectIntern.ObjBytes ObjectIntern.ObjString
  simp only [hget, hconf, hdecomp]
  by_cases hc : oi.conf.Compression = CompressionType.None
  · have hcb : oi.canon b = b := if_pos hc
    simp [hc, hpl, hcb]
  · have hcb : oi.canon b = oi.compress b := if_neg hc
    simp [hc, hpl, hcb, hrt b]

/-- Witness for C5 at a concrete fresh engine and input. -/
theorem claim_C5_witness :
    (freshEngine ⟨CompressionType.None, 100⟩ (fun x => x)
        (fun x => .ok x)).decompress
      ((freshEngine ⟨CompressionType.None, 100⟩ (fun x => x)
        (fun x => .ok x)).compress [1, 2]) = .ok [1, 2] ∧
    ((freshEngine ⟨CompressionType.None, 100⟩ (fun x => x)
        (fun x => .ok x)).AddOrGet [1, 2] false).2.ObjBytes 1 = .ok [1, 2] := by
  have h := claim_C5 (freshEngine ⟨CompressionType.None, 100⟩ (fun x => x)
    (fun x => .ok x)) (Inv_fresh _ _ _) (fun x => rfl) [1, 2] false
  refine ⟨h.1, ?_⟩
  have hfst : ((freshEngine ⟨CompressionType.None, 100⟩ (fun x => x)
      (fun x => .ok x)).AddOrGet [1, 2] false).1 = .ok 1 :=
    iter_result ⟨CompressionType.None, 100⟩ (fun x => x) (fun x => .ok x) [1, 2] false 0
  have hpair : (freshEngine ⟨CompressionType.None, 100⟩ (fun x => x)
      (fun x => .ok x)).AddOrGet [1, 2] false =
      (.ok 1, ((freshEngine ⟨CompressionType.None, 100⟩ (fun x => x)
        (fun x => .ok x)).AddOrGet [1, 2] false).2) := by
    rw [← hfst]
  exact (h.2 1 _ hpair).1

/-- C6: with compression on, every successful `AddOrGetString(b)`
returns string contents equal to the caller's original input `b`
(the source returns `string(obj)`, a fresh copy of the input, on every
compressed-mode return path); and under the codec contract those
contents also equal the decompression of the stored canonical form. -/
theorem claim_C6 (oi : ObjectIntern)
    (hc : oi.conf.Compression ≠ CompressionType.None) (b : List Nat) (safe : Bool) :
    (oi.AddOrGetString b safe).1 = .ok b ∧
    ((∀ x, oi.decompress (oi.compress x) = .ok x) →
      oi.decompress (oi.canon b) = .ok b) := by
  constructor
  · cases hl : lookupKey oi.objIndex (oi.compress b) <;>
      simp [ObjectIntern.AddOrGetString, ObjectIntern.getAndIncrement,
        ObjectIntern.add, hc, hl]
  · intro hrt
    rw [ObjectIntern.canon, if_neg hc]
    exact hrt b

/-- Witness for C6 at a concrete compressed-mode engine. -/
theorem claim_C6_witness :
    ((freshEngine ⟨CompressionType.Shoco, 100⟩ (fun x => x)
      (fun x => .ok x)).AddOrGetString [5] false).1 = .ok [5] :=
  (claim_C6 (freshEngine ⟨CompressionType.Shoco, 100⟩ (fun x => x)
    (fun x => .ok x)) (by simp [freshEngine]) [5] false).1

/-- C9: `GetPtrFromByte(b)` changes no state at all — the engine after
the call is the engine before it, so in particular every reference
count read by `RefCnt` is unchanged — and its result is exactly the
index lookup of the canonical bytes: the slot address when present,
the `couldNotFind` error carrying `b` when absent. -/
theorem claim_C9 (oi : ObjectIntern) (b : List Nat) :
    (oi.GetPtrFromByte b).2 = oi ∧
    (∀ a, (oi.GetPtrFromByte b).2.RefCnt a = oi.RefCnt a) ∧
    (oi.GetPtrFromByte b).1 =
      (match lookupKey oi.objIndex (oi.canon b) with
        | some a => .ok a
        | none => .error (.couldNotFind b)) := by
  refine ⟨GetPtrFromByte_state oi b, fun a => by rw [GetPtrFromByte_state], ?_⟩
  unfold ObjectIntern.GetPtrFromByte ObjectIntern.canon
  by_cases hc : oi.conf.Compression = CompressionType.None
  · cases hl : lookupKey oi.objIndex b <;> simp [hc, hl]
  · cases hl : lookupKey oi.objIndex (oi.compress b) <;> simp [hc, hl]

/-- C8: after a successful `Reset` the index is empty and the store
holds no slots, so every address whatsoever — in particular every
address returned by any operation before the `Reset` — fails with
`NotFound` under `ObjBytes`, `ObjString` and `RefCnt`, and `Delete`
returns `(false, NotFound)` leaving the state untouched. -/
theorem claim_C8 (oi oi' : ObjectIntern) (h : oi.Reset = .ok oi') :
    oi'.objIndex = [] ∧ oi'.store.slots = [] ∧
    (∀ a, oi'.ObjBytes a = .error .notFound) ∧
    (∀ a, oi'.ObjString a = .error .notFound) ∧
    (∀ a, oi'.RefCnt a = .error .notFound) ∧
    (∀ a, oi'.Delete a = ((false, some .notFound), oi')) := by
  unfold ObjectIntern.Reset at h
  cases hr : resetLoop oi.objIndex oi.store with
  | error e =>
    rw [hr] at h
    exact Except.noConfusion h
  | ok st =>
    rw [hr] at h
    injection h with h2
    subst h2
    exact ⟨rfl, rfl, fun a => rfl, fun a => rfl, fun a => rfl,
      fun a => Delete_absent _ _ rfl⟩

/-- Witness for C8: a concrete engine holding one object is reset. -/
theorem claim_C8_witness :
    (⟨⟨CompressionType.None, 100⟩, ⟨[(1, ⟨1, [7]⟩)], 2, []⟩, [([7], 1)],
        fun x => x, fun x => .ok x⟩ : ObjectIntern).Reset =
      .ok ⟨⟨CompressionType.None, 100⟩, ⟨[], 1, []⟩, [],
        fun x => x, fun x => .ok x⟩ ∧
    (⟨⟨CompressionType.None, 100⟩, ⟨[], 1, []⟩, [],
        fun x => x, fun x => .ok x⟩ : ObjectIntern).RefCnt 1 =
      .error .notFound := by
  have hreset : (⟨⟨CompressionType.None, 100⟩, ⟨[(1, ⟨1, [7]⟩)], 2, []⟩, [([7], 1)],
      fun x => x, fun x => .ok x⟩ : ObjectIntern).Reset =
      .ok ⟨⟨CompressionType.None, 100⟩, ⟨[], 1, []⟩, [],
        fun x => x, fun x => .ok x⟩ := rfl
  exact ⟨hreset, (claim_C8 _ _ hreset).2.2.2.2.1 1⟩

/-- Counterexample to C4 as frozen: a deleting `Delete` whose store
free fails returns `removed = false` (not `true`) while surfacing the
error; the index entry is nonetheless removed.  The engine here holds
one object of refcount 1 at address 1 whose slot free fails. -/
theorem claim_C4_counterexample :
    ((⟨⟨CompressionType.None, 100⟩, ⟨[(1, ⟨1, [7]⟩)], 2, [1]⟩, [([7], 1)],
        fun x => x, fun x => .ok x⟩ : ObjectIntern).Delete 1).1 =
      (false, some .freeFailed) ∧
    ((⟨⟨CompressionType.None, 100⟩, ⟨[(1, ⟨1, [7]⟩)], 2, [1]⟩, [([7], 1)],
        fun x => x, fun x => .ok x⟩ : ObjectIntern).Delete 1).2.objIndex = [] := by
  constructor
  · rfl
  · rfl

/-- C4 as amended: when a `Delete` reaches an object whose refcount is
at 1 and the index entry is removed but the store's slot free fails,
`Delete` surfaces the error and returns `removed = false`; the index
entry keyed by the slot payload is nonetheless already gone, so the
object is deleted from the index and unreachable (the slot leaks). -/
theorem claim_C4 (oi : ObjectIntern) (a : Nat) (sl : Slot) (e : GoiErr)
    (hget : oi.store.get a = some sl) (hrc : ¬ sl.refcnt > 1)
    (hdel : oi.store.del a = .error e) :
    oi.Delete a = ((false, some e),
      { oi with objIndex := eraseKey oi.objIndex sl.payload }) ∧
    lookupKey (oi.Delete a).2.objIndex sl.payload = none := by
  refine ⟨Delete_remove_err _ _ _ _ hget hrc hdel, ?_⟩
  rw [Delete_remove_err _ _ _ _ hget hrc hdel]
  exact lookupKey_eraseKey_self _ _

/-- Witness for the amended C4 at the concrete failing-free engine. -/
theorem claim_C4_witness :
    lookupKey ((((⟨⟨CompressionType.None, 100⟩, ⟨[(1, ⟨1, [7]⟩)], 2, [1]⟩,
        [([7], 1)], fun x => x, fun x => .ok x⟩ : ObjectIntern).Delete 1).2).objIndex)
      [7] = none :=
  (claim_C4 (⟨⟨CompressionType.None, 100⟩, ⟨[(1, ⟨1, [7]⟩)], 2, [1]⟩, [([7], 1)],
      fun x => x, fun x => .ok x⟩ : ObjectIntern) 1 ⟨1, [7]⟩ .freeFailed rfl
    (by simp) rfl).2

/-! ## JoinStrings -/

theorem sepJoin_cons_join (sep x : List Nat) (xs : List (List Nat)) :
    sepJoin sep (x :: xs) = x ++ (xs.map (fun v => sep ++ v)).flatten := by
  induction xs generalizing x with
  | nil => simp [sepJoin]
  | cons y rest ih =>
    show x ++ sep ++ sepJoin sep (y :: rest) = _
    rw [ih y]
    simp [List.append_assoc]

theorem canon_congr (oi oi' : ObjectIntern) (hconf : oi'.conf = oi.conf)
    (hcomp : oi'.compress = oi.compress) (x : List Nat) :
    oi'.canon x = oi.canon x := by
  unfold ObjectIntern.canon
  rw [hconf, hcomp]

theorem GetStringFromPtr_canon (oi : ObjectIntern) (a : Nat) (b : List Nat)
    (hrt : ∀ x, oi.decompress (oi.compress x) = .ok x)
    (hp : payloadAt oi.store a = some (oi.canon b)) :
    oi.GetStringFromPtr a = .ok b := by
  obtain ⟨sl, hget, hpl⟩ := payloadAt_get _ _ _ hp
  unfold ObjectIntern.GetStringFromPtr
  rw [hget]
  by_cases hc : oi.conf.Compression = CompressionType.None
  · have hcb : oi.canon b = b := if_pos hc
    simp [hc, hpl, hcb]
  · have hcb : oi.canon b = oi.compress b := if_neg hc
    simp [hc, hpl, hcb, hrt b]

theorem lenLoop_vals (oi : ObjectIntern) :
    ∀ (vals : List (List Nat)) (nodes : List Nat),
      List.Forall₂ (fun v a => payloadAt oi.store a = some v) vals nodes →
      lenLoop oi nodes = (vals.map List.length, true) := by
  intro vals nodes hfa
  induction hfa with
  | nil => rfl
  | cons hv hrest ih =>
    obtain ⟨sl, hget, hpl⟩ := payloadAt_get _ _ _ hv
    simp only [lenLoop, hget, ih, List.map_cons, hpl.symm]

theorem joinLoopU_vals (oi : ObjectIntern) (sep : List Nat) :
    ∀ (vals : List (List Nat)) (nodes : List Nat) (acc : List Nat),
      List.Forall₂ (fun v a => payloadAt oi.store a = some v) vals nodes →
      joinLoopU oi sep acc nodes (vals.map List.length) =
        acc ++ (vals.map (fun v => sep ++ v)).flatten := by
  intro vals nodes acc hfa
  induction hfa generalizing acc with
  | nil => simp [joinLoopU]
  | cons hv hrest ih =>
    obtain ⟨sl, hget, hpl⟩ := payloadAt_get _ _ _ hv
    rename_i v a vtl atl
    have hderef : derefPayload oi a v.length = v := by
      unfold derefPayload
      rw [hget]
      show List.take v.length sl.payload = v
      rw [hpl]
      exact List.take_length v
    simp only [List.map_cons, joinLoopU, hderef, ih, List.flatten]
    simp [List.append_assoc]

theorem joinLoopC_vals (oi : ObjectIntern) (sep : List Nat) :
    ∀ (vals : List (List Nat)) (nodes : List Nat) (acc : List Nat),
      List.Forall₂ (fun v a => oi.GetStringFromPtr a = .ok v) vals nodes →
      joinLoopC oi sep acc nodes =
        .ok (acc ++ (vals.map (fun v => sep ++ v)).flatten) := by
  intro vals nodes acc hfa
  induction hfa generalizing acc with
  | nil => simp [joinLoopC]
  | cons hv hrest ih =>
    rename_i v a vtl atl
    simp only [joinLoopC, hv, ih, List.map_cons, List.flatten]
    simp [List.append_assoc]

theorem internAll_preserves_payload (safe : Bool) :
    ∀ (bs : List (List Nat)) (oi : ObjectIntern) (a : Nat) (pl : List Nat),
      Inv oi → payloadAt oi.store a = some pl →
      payloadAt (internAll oi safe bs).2.store a = some pl := by
  intro bs
  induction bs with
  | nil => exact fun oi a pl _ hp => hp
  | cons b btl ih =>
    intro oi a pl h hp
    show payloadAt (internAll (oi.AddOrGet b safe).2 safe btl).2.store a = some pl
    exact ih _ a pl (Inv_AddOrGet oi b safe h)
      (AddOrGet_preserves_payload oi b safe a pl h hp)

theorem AddOrGet_fields (oi : ObjectIntern) (b : List Nat) (safe : Bool) :
    (oi.AddOrGet b safe).2.conf = oi.conf ∧
    (oi.AddOrGet b safe).2.compress = oi.compress ∧
    (oi.AddOrGet b safe).2.decompress = oi.decompress := by
  cases hl : lookupKey oi.objIndex (oi.canon b) with
  | some a =>
    rw [AddOrGet_hit _ _ safe _ hl]
    exact ⟨rfl, rfl, rfl⟩
  | none =>
    rw [AddOrGet_miss _ _ safe hl]
    exact ⟨rfl, rfl, rfl⟩

theorem internAll_result (safe : Bool) :
    ∀ (bs : List (List Nat)) (oi : ObjectIntern), Inv oi →
      Inv (internAll oi safe bs).2 ∧
      (internAll oi safe bs).2.conf = oi.conf ∧
      (internAll oi safe bs).2.compress = oi.compress ∧
      (internAll oi safe bs).2.decompress = oi.decompress ∧
      List.Forall₂
        (fun b a => payloadAt (internAll oi safe bs).2.store a = some (oi.canon b))
        bs (internAll oi safe bs).1 := by
  intro bs
  induction bs with
  | nil => exact fun oi h => ⟨h, rfl, rfl, rfl, List.Forall₂.nil⟩
  | cons b btl ih =>
    intro oi h
    have hpost := AddOrGet_post_get oi b safe
    have hInv1 : Inv (oi.AddOrGet b safe).2 := Inv_AddOrGet oi b safe h
    obtain ⟨hIr, hcr, hcompr, hdr, hfar⟩ := ih (oi.AddOrGet b safe).2 hInv1
    obtain ⟨hf1, hf2, hf3⟩ := AddOrGet_fields oi b safe
    cases hl : lookupKey oi.objIndex (oi.canon b) with
    | some a0 =>
      have heq : oi.AddOrGet b safe =
          (.ok a0, { oi with store := oi.store.updRC a0 1 }) :=
        AddOrGet_hit _ _ safe _ hl
      obtain ⟨hp0, _, _, _, _⟩ := hpost a0 _ h heq
      have hp0' : payloadAt (oi.AddOrGet b safe).2.store a0 = some (oi.canon b) := by
        rw [heq]
        exact hp0
      refine ⟨hIr, hcr.trans hf1, hcompr.trans hf2, hdr.trans hf3, ?_⟩
      show List.Forall₂ _ (b :: btl) _
      have hfst : (oi.AddOrGet b safe).1 = .ok a0 := by rw [heq]
      have hhead : (internAll oi safe (b :: btl)).1 =
          a0 :: (internAll (oi.AddOrGet b safe).2 safe btl).1 := by
        show (match (oi.AddOrGet b safe).1 with
            | .ok a => a
            | .error _ => 0) ::
            (internAll (oi.AddOrGet b safe).2 safe btl).1 =
          a0 :: (internAll (oi.AddOrGet b safe).2 safe btl).1
        rw [hfst]
      have hstate : (internAll oi safe (b :: btl)).2 =
          (internAll (oi.AddOrGet b safe).2 safe btl).2 := rfl
      rw [hhead, hstate]
      refine List.Forall₂.cons ?_ ?_
      · exact internAll_preserves_payload safe btl _ a0 _ hInv1 hp0'
      · refine hfar.imp ?_
        intro x y hxy
        rw [canon_congr oi (oi.AddOrGet b safe).2 hf1 hf2 x] at hxy
        exact hxy
    | none =>
      have heq : oi.AddOrGet b safe = (.ok oi.store.next,
          { oi with store := (oi.store.addSlot ⟨1, oi.canon b⟩).2,
                    objIndex := insertKey oi.objIndex (oi.canon b)
                      oi.store.next }) :=
        AddOrGet_miss _ _ safe hl
      obtain ⟨hp0, _, _, _, _⟩ := hpost oi.store.next _ h heq
      have hp0' : payloadAt (oi.AddOrGet b safe).2.store oi.store.next =
          some (oi.canon b) := by
        rw [heq]
        exact hp0
      refine ⟨hIr, hcr.trans hf1, hcompr.trans hf2, hdr.trans hf3, ?_⟩
      have hfst : (oi.AddOrGet b safe).1 = .ok oi.store.next := by rw [heq]
      have hhead : (internAll oi safe (b :: btl)).1 =
          oi.store.next :: (internAll (oi.AddOrGet b safe).2 safe btl).1 := by
        show (match (oi.AddOrGet b safe).1 with
            | .ok a => a
            | .error _ => 0) ::
            (internAll (oi.AddOrGet b safe).2 safe btl).1 =
          oi.store.next :: (internAll (oi.AddOrGet b safe).2 safe btl).1
        rw [hfst]
      have hstate : (internAll oi safe (b :: btl)).2 =
          (internAll (oi.AddOrGet b safe).2 safe btl).2 := rfl
      rw [hhead, hstate]
      refine List.Forall₂.cons ?_ ?_
      · exact internAll_preserves_payload safe btl _ _ _ hInv1 hp0'
      · refine hfar.imp ?_
        intro x y hxy
        rw [canon_congr oi (oi.AddOrGet b safe).2 hf1 hf2 x] at hxy
        exact hxy

theorem derefPayload_val (oi : ObjectIntern) (a : Nat) (v : List Nat)
    (hp : payloadAt oi.store a = some v) : derefPayload oi a v.length = v := by
  obtain ⟨sl, hget, hpl⟩ := payloadAt_get _ _ _ hp
  unfold derefPayload
  rw [hget]
  show List.take v.length sl.payload = v
  rw [hpl]
  exact List.take_length v

/-- C7: `JoinStrings` on an empty address list is an error; on a
single live address in uncompressed mode it returns exactly that
slot's payload; and for any non-empty list of inputs `b₁ … bₙ`
interned by `AddOrGet`, `JoinStrings` of the returned addresses equals
the separator-join of the `bᵢ` (in both compression modes, under the
codec contract). -/
theorem claim_C7 (oi : ObjectIntern) (h : Inv oi)
    (hrt : ∀ x, oi.decompress (oi.compress x) = .ok x) (sep : List Nat) :
    oi.JoinStrings [] sep = .error .zeroLengthSlice ∧
    (∀ a sl, oi.store.get a = some sl →
      oi.conf.Compression = CompressionType.None →
      oi.JoinStrings [a] sep = .ok sl.payload) ∧
    (∀ bs safe, bs ≠ [] →
      (internAll oi safe bs).2.JoinStrings (internAll oi safe bs).1 sep =
        .ok (sepJoin sep bs)) := by
  refine ⟨?_, ?_, ?_⟩
  · by_cases hc : oi.conf.Compression = CompressionType.None <;>
      simp [ObjectIntern.JoinStrings, ObjectIntern.joinStringsCompressed,
        ObjectIntern.joinStringsUncompressed, hc]
  · intro a sl hget hcN
    simp [ObjectIntern.JoinStrings, ObjectIntern.joinStringsUncompressed,
      ObjectIntern.GetStringFromPtr, hcN, hget]
  · intro bs safe hbs
    have hA := internAll_result safe bs oi h
    rcases hIA : internAll oi safe bs with ⟨addrs, oiN⟩
    rw [hIA] at hA
    dsimp only at hA ⊢
    obtain ⟨hInvN, hconf, hcomp, hdecomp, hfa⟩ := hA
    have hrtN : ∀ x, oiN.decompress (oiN.compress x) = .ok x := by
      intro x
      rw [hcomp, hdecomp]
      exact hrt x
    by_cases hcN : oi.conf.Compression = CompressionType.None
    · have hcanon : ∀ x, oi.canon x = x := fun x => if_pos hcN
      have hfa' : List.Forall₂ (fun v a => payloadAt oiN.store a = some v) bs addrs := by
        refine hfa.imp ?_
        intro x y hxy
        rw [hcanon x] at hxy
        exact hxy
      have hcondN : ¬ oiN.conf.Compression ≠ CompressionType.None := by
        rw [hconf, hcN]
        exact fun hne => hne rfl
      unfold ObjectIntern.JoinStrings
      rw [if_neg hcondN]
      cases hfa' with
      | nil => exact absurd rfl hbs
      | cons hv hrest =>
        rename_i b1 a1 btl atl
        cases hrest with
        | nil =>
          obtain ⟨sl, hget, hpl⟩ := payloadAt_get _ _ _ hv
          have hc2 : ¬ oiN.conf.Compression ≠ CompressionType.None := hcondN
          simp [ObjectIntern.joinStringsUncompressed, ObjectIntern.GetStringFromPtr,
            hget, hc2, hpl, sepJoin]
        | cons hv2 hrest2 =>
          rename_i b2 a2 btl2 atl2
          have hfull : List.Forall₂ (fun v a => payloadAt oiN.store a = some v)
              (b1 :: b2 :: btl2) (a1 :: a2 :: atl2) :=
            List.Forall₂.cons hv (List.Forall₂.cons hv2 hrest2)
          have hlen := lenLoop_vals oiN (b1 :: b2 :: btl2) (a1 :: a2 :: atl2) hfull
          show ObjectIntern.joinStringsUncompressed oiN (a1 :: a2 :: atl2) sep = _
          unfold ObjectIntern.joinStringsUncompressed
          dsimp only
          rw [show oiN.Len (a1 :: a2 :: atl2) = lenLoop oiN (a1 :: a2 :: atl2)
            from rfl, hlen]
          simp only [List.map_cons]
          rw [if_neg (by simp)]
          rw [derefPayload_val oiN a1 b1 hv]
          have hjoin := joinLoopU_vals oiN sep (b2 :: btl2) (a2 :: atl2) b1
            (List.Forall₂.cons hv2 hrest2)
          simp only [List.map_cons] at hjoin
          rw [hjoin, sepJoin_cons_join]
          simp
    · have hfaN : List.Forall₂
          (fun b a => payloadAt oiN.store a = some (oiN.canon b)) bs addrs := by
        refine hfa.imp ?_
        intro x y hxy
        rw [canon_congr oi oiN hconf hcomp x]
        exact hxy
      have hgs : List.Forall₂ (fun v a => oiN.GetStringFromPtr a = .ok v) bs addrs := by
        refine hfaN.imp ?_
        intro x y hxy
        exact GetStringFromPtr_canon oiN y x hrtN hxy
      have hcondS : oiN.conf.Compression ≠ CompressionType.None := by
        rw [hconf]
        exact hcN
      unfold ObjectIntern.JoinStrings
      rw [if_pos hcondS]
      cases hgs with
      | nil => exact absurd rfl hbs
      | cons hv hrest =>
        rename_i b1 a1 btl atl
        cases hrest with
        | nil =>
          simp [ObjectIntern.joinStringsCompressed, hv, sepJoin]
        | cons hv2 hrest2 =>
          rename_i b2 a2 btl2 atl2
          show ObjectIntern.joinStringsCompressed oiN (a1 :: a2 :: atl2) sep = _
          unfold ObjectIntern.joinStringsCompressed
          dsimp only
          simp only [hv]
          have hjoin := joinLoopC_vals oiN sep (b2 :: btl2) (a2 :: atl2) b1
            (List.Forall₂.cons hv2 hrest2)
          rw [hjoin, sepJoin_cons_join]

/-- Witness for C7 at a concrete fresh engine, inputs and separator. -/
theorem claim_C7_witness :
    (freshEngine ⟨CompressionType.None, 100⟩ (fun x => x)
        (fun x => .ok x)).JoinStrings [] [46] = .error .zeroLengthSlice ∧
    (internAll (freshEngine ⟨CompressionType.None, 100⟩ (fun x => x)
        (fun x => .ok x)) false [[1], [2]]).2.JoinStrings
      (internAll (freshEngine ⟨CompressionType.None, 100⟩ (fun x => x)
        (fun x => .ok x)) false [[1], [2]]).1 [46] = .ok (sepJoin [46] [[1], [2]]) ∧
    sepJoin [46] [[1], [2]] = [1, 46, 2] := by
  have h := claim_C7 (freshEngine ⟨CompressionType.None, 100⟩ (fun x => x)
    (fun x => .ok x)) (Inv_fresh _ _ _) (fun x => rfl) [46]
  exact ⟨h.1, h.2.2 [[1], [2]] false (by simp), rfl⟩

end Goi
